import Mathlib

/-!
Verification of the incremental transcript aligner (transcribe.py).

Shallow embedding conventions:
* Python `str` is modelled as `List Char`.
* Python `float` is modelled by the exact fraction type `Frac` below;
  `round` is round-half-to-even (Python's banker's rounding), `int(...)` on
  nonnegative values is the floor.
* Python `None` is `Option.none`; fallible paths return `Option`/flags.
-/

namespace Transcribe

/-- Python `str` modelled as a list of characters. -/
abbrev Str := List Char

/-- Python floats modelled as exact fractions `num / den`.  Every construction
site keeps `den > 0`; fractions are left unreduced so that all operations stay
kernel-reducible (unlike `ℚ`, whose normalisation by `Nat.gcd` does not reduce
in the kernel). -/
structure Frac where
  num : ℤ
  den : ℤ
deriving Repr, DecidableEq

/-- Embed an integer as a fraction. -/
def fz (z : ℤ) : Frac := ⟨z, 1⟩

instance : Add Frac := ⟨fun a b => ⟨a.num * b.den + b.num * a.den, a.den * b.den⟩⟩

instance : Sub Frac := ⟨fun a b => ⟨a.num * b.den - b.num * a.den, a.den * b.den⟩⟩

instance : Mul Frac := ⟨fun a b => ⟨a.num * b.num, a.den * b.den⟩⟩

/-- Fraction division, normalising the sign so the denominator stays positive.
(Division by an exact zero would be a Python `ZeroDivisionError`; it is
unreachable at every call site.) -/
instance : Div Frac := ⟨fun a b =>
  let n := a.num * b.den
  let d := a.den * b.num
  if d < 0 then ⟨-n, -d⟩ else ⟨n, d⟩⟩

instance : LT Frac := ⟨fun a b => a.num * b.den < b.num * a.den⟩

instance : LE Frac := ⟨fun a b => a.num * b.den ≤ b.num * a.den⟩

instance (a b : Frac) : Decidable (a < b) :=
  inferInstanceAs (Decidable (a.num * b.den < b.num * a.den))

instance (a b : Frac) : Decidable (a ≤ b) :=
  inferInstanceAs (Decidable (a.num * b.den ≤ b.num * a.den))

/-- Python `max(a, b)` on floats. -/
def Frac.fmax (a b : Frac) : Frac := if a < b then b else a

/-- Python `round()` to an integer: round half to even (banker's rounding).
Valid for `den > 0`, which holds at every call site. -/
def pyRound (x : Frac) : ℤ :=
  let f := Int.fdiv x.num x.den
  let rnum := x.num - f * x.den
  if 2 * rnum < x.den then f
  else if x.den < 2 * rnum then f + 1
  else if f % 2 = 0 then f else f + 1

/-- `MIN_MATCH_MS = 200` (transcribe.py line 54). -/
def MIN_MATCH_MS : ℤ := 200

/-- `RECOVER_LOOKAHEAD_SENTENCES = 8` (transcribe.py line 55). -/
def RECOVER_LOOKAHEAD_SENTENCES : ℕ := 8

/-- `MAX_EXTRA_TOKENS = 6` (transcribe.py line 56). -/
def MAX_EXTRA_TOKENS : ℤ := 6

/-- The `while diff != 0 and i < n*2` rounding-drift fix-up loop inside
`_weighted_durations` (transcribe.py lines 2610-2618).  `fuel` starts at `2*n`,
matching the loop bound `i < n*2`. -/
def driftLoop (step : ℤ) (n : ℕ) : ℕ → ℕ → List ℤ → ℤ → List ℤ
  | 0, _, out, _ => out
  | fuel + 1, i, out, diff =>
    if diff = 0 ∨ ¬ i < 2 * n then out
    else
      let idx := i % n
      if out.getD idx 0 + step ≥ 0 then
        driftLoop step n fuel (i + 1) (out.set idx (out.getD idx 0 + step)) (diff - step)
      else
        driftLoop step n fuel (i + 1) out diff

/-- Stage of `_weighted_durations` up to `out = [int(round(x)) for x in raw]`
(transcribe.py lines 2601-2607), on the `total_ms > 0, n > 0` branch. -/
def wdRounded (total_ms : ℤ) (weights : List ℤ) (min_each : ℤ) : List ℤ :=
  let n := weights.length
  let min_each_f : Frac :=
    if fz total_ms < fz min_each * fz (n : ℤ) then fz total_ms / fz (n : ℤ)
    else fz min_each
  let weight_sum : Frac := if weights.sum = 0 then fz 1 else fz weights.sum
  let remaining : Frac := Frac.fmax (fz 0) (fz total_ms - min_each_f * fz (n : ℤ))
  let raw : List Frac := weights.map (fun w : ℤ => min_each_f + remaining * (fz w / weight_sum))
  raw.map pyRound

/-- Stage of `_weighted_durations` after the rounding-drift loop and the
`if out[i] < 1: out[i] = 1` floor pass (transcribe.py lines 2608-2622),
on the `total_ms > 0, n > 0` branch. -/
def wdFloored (total_ms : ℤ) (weights : List ℤ) (min_each : ℤ) : List ℤ :=
  let n := weights.length
  let out0 := wdRounded total_ms weights min_each
  let diff : ℤ := total_ms - out0.sum
  let step : ℤ := if diff > 0 then 1 else -1
  let out1 := driftLoop step n (2 * n) 0 out0 diff
  out1.map (fun x => if x < 1 then 1 else x)

/-- `_weighted_durations(total_ms, weights, min_each)` (transcribe.py lines
2595-2626): distribute `total_ms` over `weights` with a per-entry floor, then
fix rounding drift, floor entries at 1 and force the exact sum on the last
entry. -/
def weighted_durations (total_ms : ℤ) (weights : List ℤ) (min_each : ℤ) : List ℤ :=
  let n := weights.length
  if n = 0 then []
  else if total_ms ≤ 0 then List.replicate n 0
  else
    let out2 := wdFloored total_ms weights min_each
    let total := out2.sum
    -- `if total_ms > 0:` always holds on this branch
    if total ≠ total_ms then out2.set (n - 1) (out2.getD (n - 1) 0 + (total_ms - total))
    else out2

lemma driftLoop_length (step : ℤ) (n : ℕ) :
    ∀ (fuel i : ℕ) (out : List ℤ) (diff : ℤ),
      (driftLoop step n fuel i out diff).length = out.length := by
  intro fuel
  induction fuel with
  | zero => intro i out diff; rfl
  | succ fuel ih =>
    intro i out diff
    simp only [driftLoop]
    split
    · rfl
    · split
      · rw [ih]; simp
      · rw [ih]

lemma wdRounded_length (total_ms : ℤ) (weights : List ℤ) (min_each : ℤ) :
    (wdRounded total_ms weights min_each).length = weights.length := by
  unfold wdRounded
  dsimp only
  rw [List.length_map, List.length_map]

lemma wdFloored_length (total_ms : ℤ) (weights : List ℤ) (min_each : ℤ) :
    (wdFloored total_ms weights min_each).length = weights.length := by
  unfold wdFloored
  rw [List.length_map, driftLoop_length, wdRounded_length]

lemma length_weighted_durations (total_ms : ℤ) (weights : List ℤ) (min_each : ℤ) :
    (weighted_durations total_ms weights min_each).length = weights.length := by
  unfold weighted_durations
  dsimp only
  split
  · simp [List.eq_nil_of_length_eq_zero, *]
  · split
    · simp
    · split
      · rw [List.length_set, wdFloored_length]
      · rw [wdFloored_length]

lemma sum_set_getD_add (l : List ℤ) (k : ℕ) (δ : ℤ) (hk : k < l.length) :
    (l.set k (l.getD k 0 + δ)).sum = l.sum + δ := by
  induction l generalizing k with
  | nil => simp at hk
  | cons a t ih =>
    cases k with
    | zero => simp [List.set]; ring
    | succ k =>
      simp only [List.set, List.sum_cons, List.getD_cons_succ]
      rw [ih k (by simpa using hk)]
      ring

lemma sum_weighted_durations (total_ms : ℤ) (weights : List ℤ) (min_each : ℤ)
    (hpos : 0 < total_ms) (hne : weights ≠ []) :
    (weighted_durations total_ms weights min_each).sum = total_ms := by
  have hn : weights.length ≠ 0 := fun h => hne (List.eq_nil_of_length_eq_zero h)
  unfold weighted_durations
  dsimp only
  rw [if_neg hn, if_neg (by omega)]
  split
  · rw [sum_set_getD_add _ _ _ (by rw [wdFloored_length]; omega)]
    ring
  · omega

lemma getD_floored_ge_one (total_ms : ℤ) (weights : List ℤ) (min_each : ℤ)
    (i : ℕ) (hi : i < weights.length) :
    1 ≤ (wdFloored total_ms weights min_each).getD i 0 := by
  have hlen : i < (wdFloored total_ms weights min_each).length := by
    rw [wdFloored_length]; exact hi
  unfold wdFloored
  unfold wdFloored at hlen
  rw [List.getD_eq_getElem _ _ hlen]
  simp only [List.getElem_map]
  split <;> omega

lemma getD_set_ne (l : List ℤ) (k i : ℕ) (x : ℤ) (h : i ≠ k) :
    (l.set k x).getD i 0 = l.getD i 0 := by
  by_cases hi : i < l.length
  · rw [List.getD_eq_getElem _ _ (by simpa using hi), List.getD_eq_getElem _ _ hi]
    simp [List.getElem_set, h.symm]
  · rw [List.getD_eq_default, List.getD_eq_default] <;> simp at hi ⊢ <;> omega

/-- All entries of `_weighted_durations` except possibly the last are ≥ 1
(on the `total_ms > 0` branch): the floor pass puts them at ≥ 1 and the final
sum fix-up only touches the last entry. -/
lemma weighted_durations_ge_one_except_last (total_ms : ℤ) (weights : List ℤ)
    (min_each : ℤ) (hpos : 0 < total_ms) (i : ℕ) (hi : i + 1 < weights.length) :
    1 ≤ (weighted_durations total_ms weights min_each).getD i 0 := by
  unfold weighted_durations
  dsimp only
  rw [if_neg (by omega : ¬ weights.length = 0), if_neg (by omega : ¬ total_ms ≤ 0)]
  split
  · rw [getD_set_ne _ _ _ _ (by omega)]
    exact getD_floored_ge_one total_ms weights min_each i (by omega)
  · exact getD_floored_ge_one total_ms weights min_each i (by omega)

/-- Claim C9: false as stated.  At `total_ms = 3`, `weights = [1,1,1,1,1]`,
`min_each = 200` the function returns `[1, 1, 1, 1, -1]`: the final sum fix-up
pushes the last entry below 1 (here negative), so "every entry is at least 1"
fails, although the sum is exactly `total_ms`. -/
theorem C9_counterexample :
    weighted_durations 3 [1, 1, 1, 1, 1] 200 = [1, 1, 1, 1, -1] ∧
    ¬ ∀ d ∈ weighted_durations 3 [1, 1, 1, 1, 1] 200, 1 ≤ d := by
  refine ⟨by decide, fun h => ?_⟩
  have := h (-1) (by decide)
  omega

/-- Claim C9 (amended): for every `total_ms > 0` and every non-empty list of
weights, `_weighted_durations` returns a list of the same length as the weights
whose entries sum exactly to `total_ms`, and every entry except possibly the
last is at least 1 (the last entry can fall below 1, e.g. when `total_ms` is
smaller than the number of weights). -/
theorem C9_weighted_durations_amended (total_ms : ℤ) (weights : List ℤ) (min_each : ℤ)
    (hpos : 0 < total_ms) (hne : weights ≠ []) :
    (weighted_durations total_ms weights min_each).length = weights.length ∧
    (weighted_durations total_ms weights min_each).sum = total_ms ∧
    ∀ i : ℕ, i + 1 < weights.length →
      1 ≤ (weighted_durations total_ms weights min_each).getD i 0 :=
  ⟨length_weighted_durations total_ms weights min_each,
   sum_weighted_durations total_ms weights min_each hpos hne,
   fun i hi => weighted_durations_ge_one_except_last total_ms weights min_each hpos i hi⟩

/-- Witness for `C9_weighted_durations_amended` at `total_ms = 999`,
`weights = [2, 2]`, `min_each = 200` (result `[499, 500]`). -/
theorem C9_weighted_durations_amended_witness :
    (weighted_durations 999 [2, 2] 200).length = ([2, 2] : List ℤ).length ∧
    (weighted_durations 999 [2, 2] 200).sum = 999 ∧
    ∀ i : ℕ, i + 1 < ([2, 2] : List ℤ).length →
      1 ≤ (weighted_durations 999 [2, 2] 200).getD i 0 :=
  C9_weighted_durations_amended 999 [2, 2] 200 (by decide) (by decide)

/-! ### Aligner data model -/

/-- Python whitespace for `str.strip()` (ASCII subset actually occurring in the
data). -/
def isPySpace (c : Char) : Bool :=
  c = ' ' || c = '\t' || c = '\n' || c = '\r' || c = '\x0b' || c = '\x0c'

/-- Python `str.strip()`. -/
def pyStrip (s : Str) : Str :=
  ((s.dropWhile isPySpace).reverse.dropWhile isPySpace).reverse

/-- Convenience: build a `Str` from a string literal. -/
def pyS (s : String) : Str := s.data

/-- A `Sentence` as the aligner consumes it: `text` (visible), `norm`
(normalized), `tokens`, and the only `meta` field the committed paths read,
`placeholder` (transcribe.py `Sentence` plus `meta.get("placeholder")`). -/
structure Sentence where
  text : Str
  norm : Str
  tokens : List Str
  placeholder : Bool := false
deriving Repr, DecidableEq

/-- A `Word` `{text, start, end}`; `stop` models the Python field `end`
(a keyword in Lean).  Times are seconds on the global timeline, floats
modelled by fractions. -/
structure Word where
  text : Str
  start : Frac
  stop : Frac
deriving Repr, DecidableEq

/-- One committed result entry `(Sentence, start_ms, end_ms, audio_file)`. -/
structure Entry where
  sent : Sentence
  start_ms : Option ℤ
  end_ms : Option ℤ
  src : Option Str
deriving Repr, DecidableEq

/-- The mutable state of `IncrementalAligner` (transcribe.py lines 1265-1284). -/
structure AlignerState where
  sentences : List Sentence
  min_score : ℤ := 75
  max_checks : ℤ := 4000
  dynamic_factor : ℤ := 20
  word_texts : List Str := []
  words : List Word := []
  word_srcs : List (Option Str) := []
  cursor : ℕ := 0
  sent_idx : ℕ := 0
  last_start_ms : ℤ := -1
  last_end_ms : ℤ := -1
  stop_idx : Option ℕ := none
  forced_src : Option Str := none
  results : List Entry := []
deriving Repr

/-- `IncrementalAligner._ptr_for_time` (lines 1317-1322): first word index whose
rounded end time (ms) is ≥ `t_ms`, else the word count. -/
def ptrLoop (t_ms : ℤ) : ℕ → List Word → ℕ
  | k, [] => k
  | k, w :: rest => if pyRound (w.stop * fz 1000) ≥ t_ms then k else ptrLoop t_ms (k + 1) rest

/-- `IncrementalAligner._ptr_for_time` entry point. -/
def ptr_for_time (ws : List Word) (t_ms : ℤ) : ℕ := ptrLoop t_ms 0 ws

/-- `_last_end_ms_for_file(results_list, fname, file_start_ms)` (lines
2571-2576): the maximum non-null `end_ms` among entries of audio `fname`,
defaulting to `file_start_ms`. -/
def last_end_ms_for_file (results_list : List Entry) (fname : Str)
    (file_start_ms : ℤ) : ℤ :=
  results_list.foldl (fun last r =>
    match r.end_ms, r.src with
    | some en, some src => if src = fname ∧ en > last then en else last
    | _, _ => last) file_start_ms

/-- The `for s, dur in zip(pending, durs)` append loop shared by
`_approximate_missing_chunk` (lines 2656-2660) and `_recover_with_anchor`
(lines 2709-2714): tile entries starting at `cur`, each starting where the
previous ended. -/
def tileEntries (cur : ℤ) (ps : List (Sentence × ℤ)) (audioName : Str) : List Entry :=
  match ps with
  | [] => []
  | (s, dur) :: rest =>
    { sent := s, start_ms := some cur, end_ms := some (cur + dur), src := some audioName } ::
      tileEntries (cur + dur) rest audioName

/-- `aligner_obj.results[-1] = (s_last, st_last, file_end_ms, src_last)`
(lines 2662-2664): force the final entry's end to the file end. -/
def setLastEnd (rs : List Entry) (e : ℤ) : List Entry :=
  match rs with
  | [] => []
  | [r] => [{ r with end_ms := some e }]
  | r :: rest => r :: setLastEnd rest e

/-- `aligner.last_start_ms = results[-1][1]` style read: the last entry's field
with a fallback (unreachable on the committed paths, where the last entry is
always timed). -/
def lastStartOf (rs : List Entry) (orig : ℤ) : ℤ :=
  match rs.getLast? with
  | some r => r.start_ms.getD orig
  | none => orig

/-- `aligner.last_end_ms = results[-1][2]` style read. -/
def lastEndOf (rs : List Entry) (orig : ℤ) : ℤ :=
  match rs.getLast? with
  | some r => r.end_ms.getD orig
  | none => orig

/-- `_approximate_missing_chunk` (transcribe.py lines 2628-2672).  The
`_avg_ms_per_char`-based expected-duration check (lines 2648-2653) only prints
a warning and never changes the state, so it is not modelled.  Returns the
Python boolean together with the updated aligner state. -/
def approximate_missing_chunk (st : AlignerState) (sentences_list : List Sentence)
    (chunk_end_idx : Option ℕ) (audioName : Str) (file_start_ms file_end_ms : ℤ) :
    Bool × AlignerState :=
  match chunk_end_idx with
  | none => (false, st)
  | some cend =>
    let start_idx := st.sent_idx
    if cend ≤ start_idx then (false, st)
    else
      let last_end := last_end_ms_for_file st.results audioName file_start_ms
      let base_start0 := max file_start_ms (last_end + 1)
      let base_start := if base_start0 > file_end_ms then file_end_ms else base_start0
      let remaining_ms := max 0 (file_end_ms - base_start)
      let pending := (sentences_list.drop start_idx).take (cend - start_idx)
      if pending = [] then (false, st)
      else
        let weights := pending.map (fun s => max 1 ((pyStrip s.text).length : ℤ))
        let durs := weighted_durations remaining_ms weights MIN_MATCH_MS
        let results1 := st.results ++ tileEntries base_start (pending.zip durs) audioName
        let results2 := setLastEnd results1 file_end_ms
        (true,
         { st with
             results := results2
             sent_idx := cend
             last_start_ms := lastStartOf results2 st.last_start_ms
             last_end_ms := lastEndOf results2 st.last_end_ms
             cursor := ptr_for_time st.words (lastEndOf results2 st.last_end_ms + 1) })

/-! ### Fuzzy matcher (`IncrementalAligner._try_match_sentence_core`) -/

/-- Python truncation `int(x)` on a fraction with positive denominator. -/
def pyInt (x : Frac) : ℤ :=
  if x.num < 0 then -(Int.fdiv (-x.num) x.den) else Int.fdiv x.num x.den

/-- Python slice `l[i:i+k]`. -/
def slice (l : List α) (i k : ℕ) : List α := (l.drop i).take k

/-- `" ".join(tokens)`. -/
def joinSpace : List Str → Str
  | [] => []
  | [w] => w
  | w :: rest => w ++ ' ' :: joinSpace rest

/-- `_compact_for_match` (lines 143-146): lowercase, then drop every character
outside `[0-9a-z]`. -/
def compact_for_match (s : Str) : Str :=
  (s.map Char.toLower).filter (fun c => c.isDigit || ('a' ≤ c && c ≤ 'z'))

/-- `_compact_token_eq` (lines 148-151). -/
def compact_token_eq (a b : Str) : Bool :=
  if a = [] ∨ b = [] then false else compact_for_match a = compact_for_match b

/-- One row-extension step of the longest-common-subsequence dynamic
programme: `prevTail`/`diag` walk the previous row, `left` is the entry just
computed in the new row. -/
def lcsRowAux (ca : Char) : List Char → List ℕ → ℕ → ℕ → List ℕ
  | [], _, _, _ => []
  | cb :: bs, prevTail, diag, left =>
    let up := prevTail.headD 0
    let cur := if ca = cb then diag + 1 else max left up
    cur :: lcsRowAux ca bs prevTail.tail up cur

/-- Next LCS row for character `ca` against `b`. -/
def lcsNextRow (ca : Char) (b : List Char) (prevRow : List ℕ) : List ℕ :=
  0 :: lcsRowAux ca b prevRow.tail (prevRow.headD 0) 0

/-- Length of the longest common subsequence (row-by-row dynamic programme). -/
def lcsLen (a b : List Char) : ℕ :=
  (a.foldl (fun row ca => lcsNextRow ca b row) (List.replicate (b.length + 1) 0)).getLastD 0

/-- Modelled from the spec: `_best_score` (transcribe.py lines 1256-1262) is
the max of four rapidfuzz metrics (`ratio`, `partial_ratio`,
`token_set_ratio`, `token_sort_ratio`); rapidfuzz is an external library whose
code is not in this repository.  We model the base metric `fuzz.ratio`, the
normalised indel similarity `int(100 * (1 - dist/(la+lb)))
= int(200*lcs/(la+lb))`.  On the identical-string windows used by every
concrete theorem below all four real metrics equal 100, as does this model, so
score-threshold behaviour agrees there. -/
def best_score (a b : Str) : ℤ :=
  if a.length + b.length = 0 then 100
  else (200 * (lcsLen a b : ℤ)) / ((a.length : ℤ) + (b.length : ℤ))

/-- Score one window: `_best_score` plus the compact-form retry when below the
threshold (lines 1415-1420 / 1450-1455). -/
def scoreWindow (sNorm sCompact : Str) (thr : ℤ) (win : Str) : ℤ :=
  let score := best_score sNorm win
  if score < thr ∧ sCompact ≠ [] then
    let win_c := compact_for_match win
    if win_c ≠ [] then max score (best_score sCompact win_c) else score
  else score

/-- The token walk of `_end_idx_from_matches` (lines 1347-1390): advance
through sentence/window compact tokens allowing 2-3-token merges on either
side, skipping unmatchable window tokens; returns the last matched window
index.  The window index strictly increases each step, so fuel
`winComp.length + 1` never runs out. -/
def endIdxLoop (sentComp winComp : List Str) :
    ℕ → ℕ → ℕ → Option ℕ → Option ℕ
  | 0, _, _, last => last
  | fuel + 1, sent_i, w_i, last =>
    if sent_i < sentComp.length ∧ w_i < winComp.length then
      let sc := sentComp.getD sent_i []
      let wc := winComp.getD w_i []
      if sc ≠ [] ∧ sc = wc then
        endIdxLoop sentComp winComp fuel (sent_i + 1) (w_i + 1) (some w_i)
      else
        let mergeSent : Option ℕ :=
          if sent_i + 2 ≤ sentComp.length ∧
              (let m := (slice sentComp sent_i 2).flatten; m ≠ [] ∧ m = wc) then some 2
          else if sent_i + 3 ≤ sentComp.length ∧
              (let m := (slice sentComp sent_i 3).flatten; m ≠ [] ∧ m = wc) then some 3
          else none
        match mergeSent with
        | some j => endIdxLoop sentComp winComp fuel (sent_i + j) (w_i + 1) (some w_i)
        | none =>
          let mergeWin : Option ℕ :=
            if w_i + 2 ≤ winComp.length ∧
                (let m := (slice winComp w_i 2).flatten; m ≠ [] ∧ m = sc) then some 2
            else if w_i + 3 ≤ winComp.length ∧
                (let m := (slice winComp w_i 3).flatten; m ≠ [] ∧ m = sc) then some 3
            else none
          match mergeWin with
          | some j => endIdxLoop sentComp winComp fuel (sent_i + 1) (w_i + j) (some (w_i + j - 1))
          | none => endIdxLoop sentComp winComp fuel sent_i (w_i + 1) last
    else last

/-- `_end_idx_from_matches(win_tokens, start_idx, fallback_end_idx)`
(lines 1347-1390). -/
def end_idx_from_matches (sTokens winTokens : List Str) (start_idx fallback : ℕ) : ℕ :=
  if sTokens = [] then fallback
  else
    let sentComp := sTokens.map compact_for_match
    let winComp := winTokens.map compact_for_match
    match endIdxLoop sentComp winComp (winComp.length + 1) 0 0 none with
    | none => fallback
    | some lastMatch => start_idx + lastMatch + 1

/-- A default word for out-of-range `getD` access (never reached: the source
only indexes in range). -/
def defaultWord : Word := ⟨[], fz 0, fz 0⟩

/-- The shared accepted-window commit computation (lines 1427-1436 and
1457-1466): refine the end index, round the word times, clamp to
`last_end_ms + 1` and enforce `MIN_MATCH_MS`. -/
def commitHit (st : AlignerState) (s : Sentence) (i k : ℕ) : ℤ × ℤ × Option Str × ℕ :=
  let win_tokens := slice st.word_texts i k
  let end_idx := end_idx_from_matches s.tokens win_tokens i (i + k)
  let st0 := pyRound ((st.words.getD i defaultWord).start * fz 1000)
  let en0 := pyRound ((st.words.getD (end_idx - 1) defaultWord).stop * fz 1000)
  let stv := max st0 (st.last_end_ms + 1)
  let env0 := max en0 stv
  let env := if env0 - stv < MIN_MATCH_MS then stv + MIN_MATCH_MS else env0
  (stv, env, none, end_idx)

/-- Candidate window sizes for one expansion factor (lines 1393-1402):
`max(1, int(k0*exp))` over the base lengths, deduplicated in order, keeping
only sizes fitting the available words, then capped by `max_len`
(line 1401). -/
def candFor (base_lens : List ℕ) (exp : Frac) (avail max_len : ℤ) : List ℕ :=
  let cand :=
    base_lens.foldl (fun (acc : List ℕ) k0 =>
      let k := (max 1 (pyInt (fz (k0 : ℤ) * exp))).toNat
      if k ∉ acc ∧ (k : ℤ) ≤ avail then acc ++ [k] else acc) []
  cand.filter (fun k => (k : ℤ) ≤ max_len)

/-- `tail_positions` (lines 1340-1344): word indices from the cursor onward
whose text compact-equals the sentence's last token. -/
def tailPositions (word_texts : List Str) (cursor : ℕ) (last_tok : Str) : List ℕ :=
  ((List.range word_texts.length).drop cursor).filter
    (fun idx => compact_token_eq (word_texts.getD idx []) last_tok)

/-- Outcome of the tail-anchor branch (lines 1404-1441). -/
inductive TailRes where
  | hit (h : ℤ × ℤ × Option Str × ℕ)
  | abort
  | fall (checks : ℤ)

/-- The `for k in cand` loop inside the tail-anchor branch (lines 1407-1422):
track the best `(score, i, k)`; a budget overrun breaks out with the current
best (the caller then aborts). -/
def tailKLoop (st : AlignerState) (sNorm sCompact : Str) (thr dynLimit : ℤ)
    (end_idx : ℕ) :
    List ℕ → Option (ℤ × ℕ × ℕ) → ℤ → Option (ℤ × ℕ × ℕ) × ℤ
  | [], best, checks => (best, checks)
  | k :: rest, best, checks =>
    let i : ℤ := (end_idx : ℤ) - ((k : ℤ) - 1)
    if i < (st.cursor : ℤ) ∨ i + k > st.words.length then
      tailKLoop st sNorm sCompact thr dynLimit end_idx rest best checks
    else if checks > dynLimit then (best, checks)
    else
      let win := joinSpace (slice st.word_texts i.toNat k)
      let score := scoreWindow sNorm sCompact thr win
      let checks := checks + 1
      let best := match best with
        | none => some (score, i.toNat, k)
        | some b => if score > b.1 then some (score, i.toNat, k) else some b
      tailKLoop st sNorm sCompact thr dynLimit end_idx rest best checks

/-- The `for end_idx in tail_positions` loop (lines 1405-1436): first
position whose best candidate window reaches the threshold wins; a budget
overrun aborts the whole search (lines 1423-1424, 1437-1438). -/
def tailEndLoop (st : AlignerState) (s : Sentence) (sCompact : Str)
    (thr dynLimit : ℤ) (cand : List ℕ) :
    List ℕ → ℤ → TailRes
  | [], checks => .fall checks
  | e :: rest, checks =>
    let (best, checks) := tailKLoop st s.norm sCompact thr dynLimit e cand none checks
    if checks > dynLimit then .abort
    else
      match best with
      | some (sc, i, k) =>
        if sc ≥ thr then .hit (commitHit st s i k)
        else tailEndLoop st s sCompact thr dynLimit cand rest checks
      | none => tailEndLoop st s sCompact thr dynLimit cand rest checks

/-- The sliding scan for one window size `k` (lines 1443-1468): slide `i`
from the cursor in steps of `step`, return the first window reaching the
threshold; stop on budget overrun.  `i` strictly increases, so fuel
`words.length + 1` never runs out. -/
def scanLoop (st : AlignerState) (s : Sentence) (sCompact : Str)
    (thr dynLimit : ℤ) (k step : ℕ) :
    ℕ → ℕ → ℤ → Option (ℤ × ℤ × Option Str × ℕ) × ℤ
  | 0, _, checks => (none, checks)
  | fuel + 1, i, checks =>
    if i + k ≤ st.words.length then
      if checks > dynLimit then (none, checks)
      else
        let win := joinSpace (slice st.word_texts i k)
        let score := scoreWindow s.norm sCompact thr win
        let checks := checks + 1
        if score ≥ thr then (some (commitHit st s i k), checks)
        else scanLoop st s sCompact thr dynLimit k step fuel (i + step) checks
    else (none, checks)

/-- The `for k in cand` wrapper of the sliding scan (lines 1442-1444). -/
def scanKLoop (st : AlignerState) (s : Sentence) (sCompact : Str)
    (thr dynLimit : ℤ) (aggressive : Bool) :
    List ℕ → ℤ → Option (ℤ × ℤ × Option Str × ℕ) × ℤ
  | [], checks => (none, checks)
  | k :: rest, checks =>
    let step := max 1 (k / (if aggressive then 10 else 6))
    match scanLoop st s sCompact thr dynLimit k step (st.words.length + 1) st.cursor checks with
    | (some h, checks) => (some h, checks)
    | (none, checks) => scanKLoop st s sCompact thr dynLimit aggressive rest checks

/-- The `for exp in expansions` loop (lines 1392-1468). -/
def expLoop (st : AlignerState) (s : Sentence) (aggressive : Bool)
    (base_lens : List ℕ) (max_len : ℤ) (thr dynLimit : ℤ) (sCompact : Str)
    (require_tail : Bool) (tail_positions : List ℕ) :
    List Frac → ℤ → Option (ℤ × ℤ × Option Str × ℕ)
  | [], _ => none
  | exp :: rest, checks =>
    let cand := candFor base_lens exp ((st.words.length : ℤ) - (st.cursor : ℤ)) max_len
    if cand = [] then
      expLoop st s aggressive base_lens max_len thr dynLimit sCompact
        require_tail tail_positions rest checks
    else
      let tailOut :=
        if require_tail ∧ tail_positions ≠ [] then
          tailEndLoop st s sCompact thr dynLimit cand tail_positions checks
        else .fall checks
      match tailOut with
      | .hit h => some h
      | .abort => none
      | .fall checks =>
        match scanKLoop st s sCompact thr dynLimit aggressive cand checks with
        | (some h, _) => some h
        | (none, checks) =>
          expLoop st s aggressive base_lens max_len thr dynLimit sCompact
            require_tail tail_positions rest checks

/-- `L = max(1, len(s.tokens))` (line 1325). -/
def coreL (s : Sentence) : ℕ := max 1 s.tokens.length

/-- `base_lens = [L, max(1, int(L*0.8)), max(1, int(L*1.2))]` (line 1326). -/
def coreBaseLens (s : Sentence) : List ℕ :=
  [coreL s, (max 1 (pyInt (fz (coreL s : ℤ) * ⟨8, 10⟩))).toNat,
   (max 1 (pyInt (fz (coreL s : ℤ) * ⟨12, 10⟩))).toNat]

/-- `max_len = L + max(MAX_EXTRA_TOKENS, int(L * (0.6 if aggressive else 0.2)))`
(lines 1329-1330). -/
def coreMaxLen (s : Sentence) (aggressive : Bool) : ℤ :=
  (coreL s : ℤ) +
    max MAX_EXTRA_TOKENS
      (pyInt (fz (coreL s : ℤ) * (if aggressive then ⟨6, 10⟩ else ⟨2, 10⟩)))

/-- `IncrementalAligner._try_match_sentence_core(s, aggressive)`
(transcribe.py lines 1324-1469). -/
def try_match_sentence_core (st : AlignerState) (s : Sentence) (aggressive : Bool) :
    Option (ℤ × ℤ × Option Str × ℕ) :=
  let expansions : List Frac :=
    if aggressive then [⟨6, 10⟩, ⟨8, 10⟩, ⟨10, 10⟩, ⟨13, 10⟩, ⟨16, 10⟩, ⟨20, 10⟩, ⟨25, 10⟩]
    else [⟨10, 10⟩, ⟨13, 10⟩, ⟨16, 10⟩, ⟨20, 10⟩]
  let dynLimit0 : ℤ :=
    max st.max_checks (st.dynamic_factor * max 0 ((st.words.length : ℤ) - (st.cursor : ℤ)))
  let dynLimit : ℤ := if aggressive then max dynLimit0 200000 else dynLimit0
  let thr : ℤ := if aggressive then 62 else st.min_score
  let sCompact := compact_for_match s.norm
  let last_tok := s.tokens.getLastD []
  let last_compact := compact_for_match last_tok
  let require_tail : Bool := decide (s.tokens.length ≥ 8) && decide (last_compact.length ≥ 3)
  let tail_positions := if require_tail then tailPositions st.word_texts st.cursor last_tok else []
  expLoop st s aggressive (coreBaseLens s) (coreMaxLen s aggressive) thr dynLimit sCompact
    require_tail tail_positions expansions 0

/-- Python truthiness of an optional string (`if self.forced_src:`). -/
def optTruthy : Option Str → Bool
  | some f => f ≠ []
  | none => false

/-- `IncrementalAligner._try_match_sentence(s, aggressive)` (lines 1471-1484):
commit a core hit, stamping `forced_src` when set. -/
def try_match_sentence (st : AlignerState) (s : Sentence) (aggressive : Bool) :
    Bool × AlignerState :=
  match try_match_sentence_core st s aggressive with
  | none => (false, st)
  | some (stm, enm, src_win, end_idx) =>
    let src := if optTruthy st.forced_src then st.forced_src else src_win
    (true,
     { st with
         results := st.results ++ [⟨s, some stm, some enm, src⟩]
         last_start_ms := stm
         last_end_ms := enm
         cursor := min st.words.length (max st.cursor end_idx)
         sent_idx := st.sent_idx + 1 })

/-! ### `_dominant_src` (defined in the source but never called) -/

/-- Python `min(a, b)` on floats. -/
def Frac.fmin (a b : Frac) : Frac := if b < a then b else a

/-- Add to an insertion-ordered float-valued dict (`overlap[sname] =
overlap.get(sname, 0.0) + v`). -/
def assocAdd (m : List (Str × Frac)) (k : Str) (v : Frac) : List (Str × Frac) :=
  match m with
  | [] => [(k, v)]
  | (k', v') :: rest => if k' = k then (k', v' + v) :: rest else (k', v') :: assocAdd rest k v

/-- Python `max(d.items(), key=value)[0]`: the first key attaining the maximal
value, in insertion order. -/
def argmaxFirst (m : List (Str × Frac)) : Option Str :=
  match m with
  | [] => none
  | kv :: rest =>
    some (rest.foldl (fun (best : Str × Frac) x => if best.2 < x.2 then x else best) kv).1

/-- Increment in an insertion-ordered int-valued dict
(`freq[sname] = freq.get(sname, 0) + 1`). -/
def assocIncr (m : List (Str × ℤ)) (k : Str) : List (Str × ℤ) :=
  match m with
  | [] => [(k, 1)]
  | (k', v') :: rest => if k' = k then (k', v' + 1) :: rest else (k', v') :: assocIncr rest k

/-- First key attaining the maximal count. -/
def argmaxFirstCount (m : List (Str × ℤ)) : Option Str :=
  match m with
  | [] => none
  | kv :: rest =>
    some (rest.foldl (fun (best : Str × ℤ) x => if best.2 < x.2 then x else best) kv).1

/-- `IncrementalAligner._dominant_src(i, j, st_ms, en_ms)` (transcribe.py
lines 1289-1314): pick the source with maximal cumulative time overlap with
`[st, en]`; fall back to the source of the word crossing the interval start,
then to word-count majority.  Defined in the source, but never invoked by any
commit path. -/
def dominant_src (st : AlignerState) (i j : ℕ) (st_ms en_ms : Option ℤ) : Option Str :=
  match st_ms, en_ms with
  | some stm, some enm =>
    let st_s : Frac := fz stm / fz 1000
    let en_s : Frac := fz enm / fz 1000
    let pairs := slice (st.words.zip st.word_srcs) i (j - i)
    let overlap := pairs.foldl (fun m p =>
      match p.2 with
      | none => m
      | some sn =>
        if sn = [] then m
        else
          let a := Frac.fmax p.1.start st_s
          let b := Frac.fmin p.1.stop en_s
          if a < b then assocAdd m sn (b - a) else m) []
    match argmaxFirst overlap with
    | some sn => some sn
    | none =>
      match (slice (st.words.zip st.word_srcs) i (j - i)).find?
          (fun p => st_s ≤ p.1.stop) with
      | some p => p.2
      | none =>
        let freq := (slice st.word_srcs i (j - i)).foldl (fun m s =>
          match s with
          | some sn => if sn = [] then m else assocIncr m sn
          | none => m) []
        argmaxFirstCount freq
  | _, _ => none

/-! ### Every accepted hit of the core is a `commitHit` -/

lemma scanLoop_hit (st : AlignerState) (s : Sentence) (sCompact : Str)
    (thr dynLimit : ℤ) (k step : ℕ) :
    ∀ (fuel i : ℕ) (checks : ℤ) (h : ℤ × ℤ × Option Str × ℕ),
      (scanLoop st s sCompact thr dynLimit k step fuel i checks).1 = some h →
      ∃ i' k', h = commitHit st s i' k' := by
  intro fuel
  induction fuel with
  | zero => intro i checks h hh; simp [scanLoop] at hh
  | succ fuel ih =>
    intro i checks h hh
    simp only [scanLoop] at hh
    split at hh
    · split at hh
      · simp at hh
      · split at hh
        · exact ⟨i, k, by simpa using hh.symm⟩
        · exact ih _ _ h hh
    · simp at hh

lemma scanKLoop_hit (st : AlignerState) (s : Sentence) (sCompact : Str)
    (thr dynLimit : ℤ) (aggressive : Bool) :
    ∀ (cand : List ℕ) (checks : ℤ) (h : ℤ × ℤ × Option Str × ℕ),
      (scanKLoop st s sCompact thr dynLimit aggressive cand checks).1 = some h →
      ∃ i' k', h = commitHit st s i' k' := by
  intro cand
  induction cand with
  | nil => intro checks h hh; simp [scanKLoop] at hh
  | cons k rest ih =>
    intro checks h hh
    simp only [scanKLoop] at hh
    split at hh
    · rename_i a checks' heq
      have ha : a = h := by simpa using hh
      subst ha
      exact scanLoop_hit st s sCompact thr dynLimit k _ _ _ _ a (by rw [heq])
    · rename_i checks' heq
      exact ih _ h hh

lemma tailEndLoop_hit (st : AlignerState) (s : Sentence) (sCompact : Str)
    (thr dynLimit : ℤ) (cand : List ℕ) :
    ∀ (tps : List ℕ) (checks : ℤ) (h : ℤ × ℤ × Option Str × ℕ),
      tailEndLoop st s sCompact thr dynLimit cand tps checks = .hit h →
      ∃ i' k', h = commitHit st s i' k' := by
  intro tps
  induction tps with
  | nil => intro checks h hh; simp [tailEndLoop] at hh
  | cons e rest ih =>
    intro checks h hh
    simp only [tailEndLoop] at hh
    split at hh
    · simp at hh
    · split at hh
      · split at hh
        · exact ⟨_, _, by simpa using hh.symm⟩
        · exact ih _ h hh
      · exact ih _ h hh

lemma expLoop_hit (st : AlignerState) (s : Sentence) (aggressive : Bool)
    (base_lens : List ℕ) (max_len thr dynLimit : ℤ) (sCompact : Str)
    (require_tail : Bool) (tail_positions : List ℕ) :
    ∀ (exps : List Frac) (checks : ℤ) (h : ℤ × ℤ × Option Str × ℕ),
      expLoop st s aggressive base_lens max_len thr dynLimit sCompact
        require_tail tail_positions exps checks = some h →
      ∃ i' k', h = commitHit st s i' k' := by
  intro exps
  induction exps with
  | nil => intro checks h hh; simp [expLoop] at hh
  | cons exp rest ih =>
    intro checks h hh
    simp only [expLoop] at hh
    split at hh
    · exact ih _ h hh
    · split at hh
      · rename_i hv heq
        have hveq : hv = h := by simpa using hh
        subst hveq
        split at heq
        · exact tailEndLoop_hit st s sCompact thr dynLimit _ _ _ hv heq
        · cases heq
      · simp at hh
      · split at hh
        · rename_i a checks' heq
          have ha : a = h := by simpa using hh
          subst ha
          exact scanKLoop_hit st s sCompact thr dynLimit aggressive _ _ a (by rw [heq])
        · exact ih _ h hh

/-- Every hit returned by `_try_match_sentence_core` is built by the shared
commit computation `commitHit`. -/
lemma core_hit_is_commitHit (st : AlignerState) (s : Sentence) (aggressive : Bool)
    (h : ℤ × ℤ × Option Str × ℕ)
    (hh : try_match_sentence_core st s aggressive = some h) :
    ∃ i' k', h = commitHit st s i' k' := by
  unfold try_match_sentence_core at hh
  exact expLoop_hit st s aggressive _ _ _ _ _ _ _ _ _ h hh

lemma commitHit_src_none (st : AlignerState) (s : Sentence) (i k : ℕ) :
    (commitHit st s i k).2.2.1 = none := rfl

lemma commitHit_start_ge (st : AlignerState) (s : Sentence) (i k : ℕ) :
    (commitHit st s i k).1 ≥ st.last_end_ms + 1 := by
  unfold commitHit
  dsimp only
  exact le_max_right _ _

lemma commitHit_end_ge_start (st : AlignerState) (s : Sentence) (i k : ℕ) :
    (commitHit st s i k).2.1 ≥ (commitHit st s i k).1 := by
  unfold commitHit
  dsimp only
  split
  · unfold MIN_MATCH_MS; omega
  · exact le_max_right _ _

lemma commitHit_duration (st : AlignerState) (s : Sentence) (i k : ℕ) :
    (commitHit st s i k).2.1 - (commitHit st s i k).1 ≥ MIN_MATCH_MS := by
  unfold commitHit
  dsimp only
  split
  · omega
  · omega

/-- Claim C2 (amended): every sentence committed through the fuzzy matcher
(normal or aggressive) satisfies `end_ms - start_ms ≥ MIN_MATCH_MS` (the two
commit sites clamp the span); gap-interpolated and weighted-approximation
commits do not guarantee this floor when the span being distributed is
shorter than `MIN_MATCH_MS` per pending sentence. -/
theorem C2_min_span_amended (st : AlignerState) (s : Sentence) (aggressive : Bool)
    (h : ℤ × ℤ × Option Str × ℕ)
    (hh : try_match_sentence_core st s aggressive = some h) :
    h.2.1 - h.1 ≥ MIN_MATCH_MS := by
  obtain ⟨i', k', rfl⟩ := core_hit_is_commitHit st s aggressive h hh
  exact commitHit_duration st s i' k'

/-- Concrete sentence "hello world" for the matcher scenarios. -/
def sHW : Sentence :=
  { text := pyS "Hello world", norm := pyS "hello world",
    tokens := [pyS "hello", pyS "world"] }

/-- Concrete aligner state: two words from `a.wav` matching `sHW` exactly,
`forced_src` unset. -/
def stHW : AlignerState :=
  { sentences := [sHW]
    word_texts := [pyS "hello", pyS "world"]
    words := [⟨pyS "hello", fz 0, ⟨5, 10⟩⟩, ⟨pyS "world", ⟨5, 10⟩, fz 1⟩]
    word_srcs := [some (pyS "a.wav"), some (pyS "a.wav")] }

/-- Witness for `C2_min_span_amended`: the concrete exact match of `sHW`
yields the hit `(0, 1000, none, 2)` with a 1000 ms span. -/
theorem C2_min_span_amended_witness :
    (1000 : ℤ) - 0 ≥ MIN_MATCH_MS :=
  C2_min_span_amended stHW sHW false (0, 1000, none, 2) (by decide)

/-- Claim C3: false as stated.  `_dominant_src` is defined but never invoked
by any commit path: when `forced_src` is unset, the fuzzy matcher commits the
entry with `audio_file = None`, even though every matched word belongs to
`a.wav` and `_dominant_src` would return `a.wav` for the committed
interval. -/
theorem C3_counterexample :
    (try_match_sentence stHW sHW false).2.results =
      [⟨sHW, some 0, some 1000, none⟩] ∧
    dominant_src stHW 0 2 (some 0) (some 1000) = some (pyS "a.wav") ∧
    (⟨sHW, some 0, some 1000, none⟩ : Entry).src ≠
      dominant_src stHW 0 2 (some 0) (some 1000) :=
  ⟨by decide, by decide, by decide⟩

/-- Claim C3 (amended): the `audio_file` recorded by a fuzzy-match commit is
`forced_src` whenever `forced_src` is set (truthy) and `None` otherwise — the
overlap-maximising `_dominant_src` helper exists in the source but is never
consulted by any commit path. -/
theorem C3_committed_src_amended (st : AlignerState) (s : Sentence) (aggressive : Bool) :
    ∀ e ∈ ((try_match_sentence st s aggressive).2.results).drop st.results.length,
      e.src = if optTruthy st.forced_src then st.forced_src else none := by
  intro e he
  unfold try_match_sentence at he
  cases hc : try_match_sentence_core st s aggressive with
  | none =>
    rw [hc] at he
    simp [List.drop_length] at he
  | some h =>
    obtain ⟨stm, enm, src_win, end_idx⟩ := h
    rw [hc] at he
    dsimp only at he
    rw [List.drop_left] at he
    have hsw : src_win = none := by
      obtain ⟨i', k', hck⟩ := core_hit_is_commitHit st s aggressive _ hc
      have := commitHit_src_none st s i' k'
      rw [← hck] at this
      exact this
    subst hsw
    simp only [List.mem_singleton] at he
    subst he
    rfl

/-- Witness for `C3_committed_src_amended`: the concrete exact-match commit of
`sHW` with `forced_src` unset records `audio_file = None`. -/
theorem C3_committed_src_amended_witness :
    (⟨sHW, some 0, some 1000, none⟩ : Entry).src =
      if optTruthy stHW.forced_src then stHW.forced_src else none :=
  C3_committed_src_amended stHW sHW false ⟨sHW, some 0, some 1000, none⟩ (by decide)

/-- Concrete 35-token sentence for the window-cap claim. -/
def s35 : Sentence :=
  { text := pyS "w", norm := pyS "w", tokens := List.replicate 35 (pyS "w") }

/-- Claim C5: false as stated.  In non-aggressive mode the cap is
`L + max(6, int(L*0.2))`, not `L + 6`: for `L = 35` the candidate sizes at
expansion 1.0 (the first entry of the non-aggressive expansion list) include
`42 = int(35*1.2) ≤ 35 + max(6, 7)`, which exceeds `L + 6 = 41`, and the
sliding scan scores windows of every candidate size. -/
theorem C5_counterexample :
    42 ∈ candFor (coreBaseLens s35) ⟨10, 10⟩ 100 (coreMaxLen s35 false) ∧
    ¬ ((42 : ℤ) ≤ (coreL s35 : ℤ) + 6) :=
  ⟨by decide, by decide⟩

/-- Claim C5 (amended): every candidate window size the matcher scores is at
most `L + max(6, ⌊0.6·L⌋)` in aggressive mode and `L + max(6, ⌊0.2·L⌋)` in
non-aggressive mode (the `0.2` factor was omitted by the claim). -/
theorem C5_window_cap_amended (s : Sentence) (aggressive : Bool) (avail : ℤ)
    (exp : Frac) (k : ℕ)
    (hk : k ∈ candFor (coreBaseLens s) exp avail (coreMaxLen s aggressive)) :
    (k : ℤ) ≤ (coreL s : ℤ) +
      max MAX_EXTRA_TOKENS (Int.fdiv ((coreL s : ℤ) * (if aggressive then 6 else 2)) 10) := by
  have h1 : (k : ℤ) ≤ coreMaxLen s aggressive := by
    unfold candFor at hk
    have := List.of_mem_filter hk
    simpa using this
  have h2 : coreMaxLen s aggressive =
      (coreL s : ℤ) +
        max MAX_EXTRA_TOKENS (Int.fdiv ((coreL s : ℤ) * (if aggressive then 6 else 2)) 10) := by
    unfold coreMaxLen
    congr 1
    congr 1
    cases aggressive
    · show pyInt ⟨(coreL s : ℤ) * 2, 1 * 10⟩ = _
      unfold pyInt
      rw [if_neg (by show ¬ ((coreL s : ℤ) * 2 < 0); omega)]
      norm_num
    · show pyInt ⟨(coreL s : ℤ) * 6, 1 * 10⟩ = _
      unfold pyInt
      rw [if_neg (by show ¬ ((coreL s : ℤ) * 6 < 0); omega)]
      norm_num
  rw [h2] at h1
  exact h1

/-- Witness for `C5_window_cap_amended`: size 42 at `L = 35`, expansion 1.0,
non-aggressive, 100 available words. -/
theorem C5_window_cap_amended_witness :
    ((42 : ℕ) : ℤ) ≤ (coreL s35 : ℤ) +
      max MAX_EXTRA_TOKENS (Int.fdiv ((coreL s35 : ℤ) * (if false then 6 else 2)) 10) :=
  C5_window_cap_amended s35 false 100 ⟨10, 10⟩ 42 (by decide)

/-- Adjacent-pair check of spec invariant 1 as frozen in claim C1 (strict):
whenever both neighbours are fully timed, `end_ms i ≥ start_ms i` and
`start_ms i ≥ end_ms (i-1) + 1`. -/
def pairStrictOk (p q : Entry) : Bool :=
  match p.start_ms, p.end_ms, q.start_ms, q.end_ms with
  | some _, some ep, some sq, some eq' => decide (eq' ≥ sq) && decide (sq ≥ ep + 1)
  | _, _, _, _ => true

/-- Adjacent-pair check, non-strict variant (spec §8 invariant 1):
`end_ms i ≥ start_ms i` and `start_ms i ≥ end_ms (i-1)`. -/
def pairNonStrictOk (p q : Entry) : Bool :=
  match p.start_ms, p.end_ms, q.start_ms, q.end_ms with
  | some _, some ep, some sq, some eq' => decide (eq' ≥ sq) && decide (sq ≥ ep)
  | _, _, _, _ => true

/-- All adjacent pairs of a result list satisfy `ok`. -/
def monoChain (ok : Entry → Entry → Bool) : List Entry → Bool
  | [] => true
  | [_] => true
  | p :: q :: rest => ok p q && monoChain ok (q :: rest)

/-- A default sentence for out-of-range `getD` access (unreachable: the source
indexes in range). -/
def defaultSentence : Sentence := ⟨[], [], [], false⟩

/-- Final `cur` after the tile append loop (`cur = en` each iteration). -/
def tileCur (cur : ℤ) (ps : List (Sentence × ℤ)) : ℤ :=
  ps.foldl (fun c p => c + p.2) cur

/-- The anchor search `for j in range(start_idx + 1, max_idx)` of
`_recover_with_anchor` (lines 2687-2692): the first later sentence the
aggressive matcher hits.  `fuel` starts at `max_idx`, bounding the scan. -/
def findAnchor (st : AlignerState) (sl : List Sentence) (max_idx : ℕ) :
    ℕ → ℕ → Option (ℕ × (ℤ × ℤ × Option Str × ℕ))
  | 0, _ => none
  | fuel + 1, j =>
    if j < max_idx then
      match try_match_sentence_core st (sl.getD j defaultSentence) true with
      | some hit => some (j, hit)
      | none => findAnchor st sl max_idx fuel (j + 1)
    else none

/-- `_recover_with_anchor` (transcribe.py lines 2674-2730): find an anchor a
few sentences ahead with the aggressive matcher, interpolate the gap sentences
by character weight, then commit the anchor keeping monotonicity and the
file-end cap.  (The `if st is None or en is None` guard of line 2696 is
vacuous here: the core returns integers.)  Returns the Python boolean and the
updated state. -/
def recover_with_anchor (st : AlignerState) (sl : List Sentence)
    (chunk_end_idx : Option ℕ) (audioName : Str) (file_start_ms file_end_ms : ℤ)
    (lookahead : ℕ := RECOVER_LOOKAHEAD_SENTENCES) : Bool × AlignerState :=
  match chunk_end_idx with
  | none => (false, st)
  | some cend =>
    let start_idx := st.sent_idx
    if cend ≤ start_idx then (false, st)
    else
      let max_idx := min cend (start_idx + max 1 lookahead + 1)
      match findAnchor st sl max_idx max_idx (start_idx + 1) with
      | none => (false, st)
      | some (anchor_idx, (stm, enm, _src_win, end_idx)) =>
        let last_end := last_end_ms_for_file st.results audioName file_start_ms
        let base_start := max file_start_ms (last_end + 1)
        let anchor_start0 := max base_start stm
        let pending := (sl.drop start_idx).take (anchor_idx - start_idx)
        let branch : List Entry × ℤ × ℤ :=
          if pending = [] then (st.results, base_start, anchor_start0)
          else
            let min_total := MIN_MATCH_MS * (pending.length : ℤ)
            let anchor_start :=
              if anchor_start0 - base_start < min_total then
                min file_end_ms (base_start + min_total)
              else anchor_start0
            let gap_ms := max 0 (anchor_start - base_start)
            let weights := pending.map (fun s => max 1 ((pyStrip s.text).length : ℤ))
            let durs := weighted_durations gap_ms weights MIN_MATCH_MS
            (st.results ++ tileEntries base_start (pending.zip durs) audioName,
             tileCur base_start (pending.zip durs), anchor_start)
        let results1 := branch.1
        let cur := branch.2.1
        let anchor_start := branch.2.2
        let stA0 := max (max anchor_start stm) cur
        let enA0 := max enm (stA0 + MIN_MATCH_MS)
        let capped : ℤ × ℤ :=
          if enA0 > file_end_ms then
            if file_end_ms < stA0 then
              (max file_start_ms (file_end_ms - MIN_MATCH_MS), file_end_ms)
            else (stA0, file_end_ms)
          else (stA0, enA0)
        let stA := capped.1
        let enA := capped.2
        let results2 := results1 ++
          [⟨sl.getD anchor_idx defaultSentence, some stA, some enA, some audioName⟩]
        (true,
         { st with
             results := results2
             sent_idx := anchor_idx + 1
             last_start_ms := stA
             last_end_ms := enA
             cursor := min st.words.length (max st.cursor end_idx) })

/-- One stored item of the progress JSON as the resume replay reads it. -/
structure StoredItem where
  text : Str
  start_ms : Option ℤ
  end_ms : Option ℤ
  audio_file : Option Str
deriving Repr, DecidableEq

/-- A default stored item (unreachable index fallback). -/
def defaultStored : StoredItem := ⟨[], none, none, none⟩

/-- The result entry a replayed stored item produces
(`aligner.results.append((sentences[k], int(st), en_eff, src))`, lines
1980-1983). -/
def primedEntry (it : StoredItem) (sent : Sentence) : Entry :=
  match it.start_ms with
  | some stv => ⟨sent, some stv, some (it.end_ms.getD stv), it.audio_file⟩
  | none => ⟨sent, none, none, it.audio_file⟩

/-- The replay loop of `_prime_from_existing` (lines 1971-1985): walk items in
order until the first text mismatch or null `start_ms`, appending the stored
tuples verbatim; the Python `for`/`else` leaves `k` at the bound on normal
completion.  `fuel` starts at `bound + 1`. -/
def primeLoop (items : List StoredItem) (sl : List Sentence) (bound : ℕ) :
    ℕ → ℕ → AlignerState → ℕ × AlignerState
  | 0, k, st => (k, st)
  | fuel + 1, k, st =>
    if k < bound then
      let it := items.getD k defaultStored
      let sent := sl.getD k defaultSentence
      if pyStrip it.text ≠ pyStrip sent.text then (k, st)
      else
        match it.start_ms with
        | none => (k, st)
        | some stv =>
          let en_eff := it.end_ms.getD stv
          primeLoop items sl bound fuel (k + 1)
            { st with
                results := st.results ++ [⟨sent, some stv, some en_eff, it.audio_file⟩]
                last_start_ms := stv
                last_end_ms := en_eff }
    else (k, st)

/-- `_prime_from_existing` (transcribe.py lines 1956-1991), modelling the
replay of committed tuples into the aligner.  The processed-audio ledger
normalisation and the running-offset read (lines 1964-1969) touch only
metadata and are not modelled. -/
def prime_from_existing (items : List StoredItem) (sl : List Sentence)
    (st : AlignerState) : ℕ × AlignerState :=
  let bound := min items.length sl.length
  let r := primeLoop items sl bound (bound + 1) 0 st
  (r.1,
   { r.2 with
       sent_idx := r.1
       cursor := ptr_for_time r.2.words (r.2.last_end_ms + 1) })

lemma tileEntries_length (cur : ℤ) (ps : List (Sentence × ℤ)) (audioName : Str) :
    (tileEntries cur ps audioName).length = ps.length := by
  induction ps generalizing cur with
  | nil => rfl
  | cons p rest ih => cases p; simp [tileEntries, ih]

lemma setLastEnd_length (rs : List Entry) (e : ℤ) :
    (setLastEnd rs e).length = rs.length := by
  induction rs with
  | nil => rfl
  | cons r rest ih =>
    cases rest with
    | nil => rfl
    | cons r' rest' => simp only [setLastEnd, List.length_cons] at ih ⊢; omega

lemma setLastEnd_getLast? (rs : List Entry) (e : ℤ) (h : rs ≠ []) :
    ∃ r, rs.getLast? = some r ∧
      (setLastEnd rs e).getLast? = some { r with end_ms := some e } := by
  induction rs with
  | nil => exact absurd rfl h
  | cons r rest ih =>
    cases rest with
    | nil => exact ⟨r, rfl, rfl⟩
    | cons r' rest' =>
      obtain ⟨x, hx1, hx2⟩ := ih (by simp)
      refine ⟨x, ?_, ?_⟩
      · rw [List.getLast?_cons_cons]; exact hx1
      · show (r :: setLastEnd (r' :: rest') e).getLast? = _
        have hne : setLastEnd (r' :: rest') e ≠ [] := by
          intro hc
          have := setLastEnd_length (r' :: rest') e
          rw [hc] at this
          simp at this
        cases hsl : setLastEnd (r' :: rest') e with
        | nil => exact absurd hsl hne
        | cons y ys => rw [List.getLast?_cons_cons]; rw [hsl] at hx2; exact hx2

lemma setLastEnd_append (a b : List Entry) (e : ℤ) (hb : b ≠ []) :
    setLastEnd (a ++ b) e = a ++ setLastEnd b e := by
  induction a with
  | nil => rfl
  | cons x a' ih =>
    cases hab : a' ++ b with
    | nil => exact absurd (List.append_eq_nil.mp hab).2 hb
    | cons y ys =>
      show setLastEnd (x :: (a' ++ b)) e = _
      rw [hab]
      show x :: setLastEnd (y :: ys) e = _
      rw [← hab, ih]
      rfl

lemma tileCur_eq :
    ∀ (ps : List (Sentence × ℤ)) (cur : ℤ),
      tileCur cur ps = cur + (ps.map Prod.snd).sum := by
  intro ps
  induction ps with
  | nil => intro cur; simp [tileCur]
  | cons p rest ih =>
    intro cur
    show tileCur (cur + p.2) rest = _
    rw [ih]
    simp
    ring

lemma monoChain_cons_cons (ok : Entry → Entry → Bool) (p q : Entry) (rest : List Entry) :
    monoChain ok (p :: q :: rest) = (ok p q && monoChain ok (q :: rest)) := rfl

lemma monoChain_append (ok : Entry → Entry → Bool) :
    ∀ (a b : List Entry),
      monoChain ok a = true → monoChain ok b = true →
      (∀ x ∈ a.getLast?, ∀ y ∈ b.head?, ok x y = true) →
      monoChain ok (a ++ b) = true := by
  intro a
  induction a with
  | nil => intro b _ hb _; simpa using hb
  | cons p a' ih =>
    intro b ha hb hj
    cases a' with
    | nil =>
      cases b with
      | nil => simpa using ha
      | cons q b' =>
        show monoChain ok (p :: q :: b') = true
        rw [monoChain_cons_cons, Bool.and_eq_true]
        exact ⟨hj p rfl q rfl, hb⟩
    | cons r a'' =>
      show monoChain ok (p :: r :: (a'' ++ b)) = true
      rw [monoChain_cons_cons, Bool.and_eq_true]
      rw [monoChain_cons_cons, Bool.and_eq_true] at ha
      refine ⟨ha.1, ih b ha.2 hb ?_⟩
      intro x hx y hy
      exact hj x (by rwa [List.getLast?_cons_cons]) y hy

lemma pairNonStrictOk_of (p q : Entry) (sq eq' : ℤ)
    (hq1 : q.start_ms = some sq) (hq2 : q.end_ms = some eq')
    (h1 : sq ≤ eq') (h2 : ∀ ep ∈ p.end_ms, ep ≤ sq) :
    pairNonStrictOk p q = true := by
  unfold pairNonStrictOk
  rw [hq1, hq2]
  cases hps : p.start_ms with
  | none => rfl
  | some sp =>
    cases hpe : p.end_ms with
    | none => rfl
    | some ep =>
      have := h2 ep (by rw [hpe]; rfl)
      simp only [Bool.and_eq_true, decide_eq_true_eq]
      omega

lemma monoChain_tile (aname : Str) :
    ∀ (ps : List (Sentence × ℤ)) (cur : ℤ), (∀ p ∈ ps, 0 ≤ p.2) →
      monoChain pairNonStrictOk (tileEntries cur ps aname) = true := by
  intro ps
  induction ps with
  | nil => intro cur _; rfl
  | cons p rest ih =>
    intro cur hd
    cases rest with
    | nil => rfl
    | cons q rest' =>
      show monoChain pairNonStrictOk
        (⟨p.1, some cur, some (cur + p.2), some aname⟩ ::
          tileEntries (cur + p.2) (q :: rest') aname) = true
      have htail := ih (cur + p.2) (fun x hx => hd x (List.mem_cons_of_mem p hx))
      show monoChain pairNonStrictOk
        (⟨p.1, some cur, some (cur + p.2), some aname⟩ ::
          ⟨q.1, some (cur + p.2), some (cur + p.2 + q.2), some aname⟩ ::
          tileEntries (cur + p.2 + q.2) rest' aname) = true
      rw [monoChain_cons_cons, Bool.and_eq_true]
      constructor
      · apply pairNonStrictOk_of _ _ (cur + p.2) (cur + p.2 + q.2) rfl rfl
        · have := hd q (by simp)
          omega
        · intro ep hep
          simp only [Option.mem_def, Option.some.injEq] at hep
          omega
      · exact htail

lemma setLastEnd_head (fe : ℤ) (r : Entry) (rest : List Entry) :
    (setLastEnd (r :: rest) fe).head? =
      some (if rest = [] then { r with end_ms := some fe } else r) := by
  cases rest <;> rfl

lemma pairNonStrictOk_none (p q : Entry)
    (h : p.start_ms = none ∨ p.end_ms = none ∨ q.start_ms = none ∨ q.end_ms = none) :
    pairNonStrictOk p q = true := by
  unfold pairNonStrictOk
  cases hps : p.start_ms <;> cases hpe : p.end_ms <;>
    cases hqs : q.start_ms <;> cases hqe : q.end_ms <;> simp_all

lemma monoChain_setLastEnd (fe : ℤ) :
    ∀ (rs : List Entry), monoChain pairNonStrictOk rs = true →
      (∀ r ∈ rs.getLast?, ∀ s ∈ r.start_ms, s ≤ fe) →
      (∀ r ∈ rs, r.end_ms ≠ none) →
      monoChain pairNonStrictOk (setLastEnd rs fe) = true := by
  intro rs
  induction rs with
  | nil => intro _ _ _; rfl
  | cons r rest ih =>
    intro hmono hst hall
    cases rest with
    | nil => rfl
    | cons r' rest' =>
      show monoChain pairNonStrictOk (r :: setLastEnd (r' :: rest') fe) = true
      rw [monoChain_cons_cons, Bool.and_eq_true] at hmono
      have htail := ih hmono.2 (fun x hx => hst x (by rwa [List.getLast?_cons_cons]))
        (fun x hx => hall x (List.mem_cons_of_mem r hx))
      cases hsl : setLastEnd (r' :: rest') fe with
      | nil =>
        have := setLastEnd_length (r' :: rest') fe
        rw [hsl] at this
        simp at this
      | cons y ys =>
        rw [monoChain_cons_cons, Bool.and_eq_true]
        refine ⟨?_, by rwa [hsl] at htail⟩
        have hy : y = if rest' = [] then { r' with end_ms := some fe } else r' := by
          have := setLastEnd_head fe r' rest'
          rw [hsl] at this
          simpa using this
        cases hre : rest' with
        | nil =>
          subst hre
          rw [if_pos rfl] at hy
          subst hy
          obtain ⟨e', he'⟩ : ∃ e', r'.end_ms = some e' :=
            Option.ne_none_iff_exists'.mp (hall r' (by simp))
          cases hps : r.start_ms with
          | none => exact pairNonStrictOk_none _ _ (Or.inl hps)
          | some sp =>
            cases hpe : r.end_ms with
            | none => exact pairNonStrictOk_none _ _ (Or.inr (Or.inl hpe))
            | some ep =>
              cases hq1 : r'.start_ms with
              | none =>
                exact pairNonStrictOk_none _ _ (Or.inr (Or.inr (Or.inl rfl)))
              | some sq =>
                have h1 := hmono.1
                unfold pairNonStrictOk at h1 ⊢
                rw [hps, hpe, hq1, he'] at h1
                rw [hps, hpe]
                simp only [Bool.and_eq_true, decide_eq_true_eq] at h1 ⊢
                have hfe := hst r' (by simp) sq (by rw [hq1]; rfl)
                exact ⟨by omega, h1.2⟩
        | cons z zs =>
          subst hre
          rw [if_neg (by simp)] at hy
          subst hy
          exact hmono.1

lemma tileEntries_getLast (aname : Str) :
    ∀ (ps' : List (Sentence × ℤ)) (p : Sentence × ℤ) (cur : ℤ),
      (tileEntries cur (ps' ++ [p]) aname).getLast? =
        some ⟨p.1, some (tileCur cur ps'), some (tileCur cur ps' + p.2), some aname⟩ := by
  intro ps'
  induction ps' with
  | nil => intro p cur; rfl
  | cons q qs ih =>
    intro p cur
    show ((⟨q.1, some cur, some (cur + q.2), some aname⟩ : Entry) ::
        tileEntries (cur + q.2) (qs ++ [p]) aname).getLast? = _
    have hne : tileEntries (cur + q.2) (qs ++ [p]) aname ≠ [] := by
      intro hc
      have := tileEntries_length (cur + q.2) (qs ++ [p]) aname
      rw [hc] at this
      simp at this
    cases hsl : tileEntries (cur + q.2) (qs ++ [p]) aname with
    | nil => exact absurd hsl hne
    | cons y ys =>
      rw [List.getLast?_cons_cons, ← hsl, ih]
      rfl

lemma tileEntries_end_ne_none (aname : Str) :
    ∀ (ps : List (Sentence × ℤ)) (cur : ℤ), ∀ r ∈ tileEntries cur ps aname,
      r.end_ms ≠ none := by
  intro ps
  induction ps with
  | nil => intro cur r hr; simp [tileEntries] at hr
  | cons p rest ih =>
    intro cur r hr
    rcases List.mem_cons.mp hr with h | h
    · subst h; simp
    · exact ih (cur + p.2) r h

/-- Functional characterisation of `_approximate_missing_chunk` on its
successful branch, shared by the claim theorems. -/
lemma approximate_missing_chunk_spec (st : AlignerState) (sl : List Sentence) (cend : ℕ)
    (aname : Str) (fs fe : ℤ)
    (h1 : st.sent_idx < cend) (h2 : cend ≤ sl.length) :
    let last_end := last_end_ms_for_file st.results aname fs
    let base0 := max fs (last_end + 1)
    let base := if base0 > fe then fe else base0
    let remaining := max 0 (fe - base)
    let pending := (sl.drop st.sent_idx).take (cend - st.sent_idx)
    let weights := pending.map (fun s => max 1 ((pyStrip s.text).length : ℤ))
    let durs := weighted_durations remaining weights MIN_MATCH_MS
    approximate_missing_chunk st sl (some cend) aname fs fe =
      (true,
       { st with
           results := st.results ++ setLastEnd (tileEntries base (pending.zip durs) aname) fe
           sent_idx := cend
           last_start_ms := lastStartOf
             (st.results ++ setLastEnd (tileEntries base (pending.zip durs) aname) fe)
             st.last_start_ms
           last_end_ms := lastEndOf
             (st.results ++ setLastEnd (tileEntries base (pending.zip durs) aname) fe)
             st.last_end_ms
           cursor := ptr_for_time st.words
             (lastEndOf (st.results ++ setLastEnd (tileEntries base (pending.zip durs) aname) fe)
               st.last_end_ms + 1) }) := by
  intro last_end base0 base remaining pending weights durs
  have hpl : pending.length = cend - st.sent_idx := by
    show ((sl.drop st.sent_idx).take (cend - st.sent_idx)).length = _
    rw [List.length_take, List.length_drop]
    omega
  have hpne : pending ≠ [] := by
    intro hc
    rw [hc] at hpl
    simp at hpl
    omega
  have hdl : durs.length = pending.length := by
    show (weighted_durations remaining weights MIN_MATCH_MS).length = _
    rw [length_weighted_durations]
    exact List.length_map _ _
  have hzl : (pending.zip durs).length = pending.length := by
    rw [List.length_zip, hdl, min_self]
  have htl : (tileEntries base (pending.zip durs) aname) ≠ [] := by
    intro hc
    have := tileEntries_length base (pending.zip durs) aname
    rw [hc, hzl] at this
    exact hpne (List.eq_nil_of_length_eq_zero this.symm)
  show approximate_missing_chunk st sl (some cend) aname fs fe = _
  unfold approximate_missing_chunk
  dsimp only
  rw [if_neg (by omega : ¬ cend ≤ st.sent_idx), if_neg hpne,
    setLastEnd_append _ _ _ htl]

lemma primeLoop_spec (items : List StoredItem) (sl : List Sentence) (bound : ℕ) :
    ∀ (fuel k : ℕ) (st : AlignerState) (k' : ℕ) (st2 : AlignerState),
      primeLoop items sl bound fuel k st = (k', st2) →
      k ≤ k' ∧
      st2.results = st.results ++
        (List.range' k (k' - k)).map
          (fun j => primedEntry (items.getD j defaultStored) (sl.getD j defaultSentence)) := by
  intro fuel
  induction fuel with
  | zero =>
    intro k st k' st2 heq
    obtain ⟨rfl, rfl⟩ : k = k' ∧ st = st2 := by
      simpa [primeLoop, Prod.ext_iff] using heq
    simp
  | succ fuel ih =>
    intro k st k' st2 heq
    simp only [primeLoop] at heq
    split at heq
    · split at heq
      · obtain ⟨rfl, rfl⟩ : k = k' ∧ st = st2 := by simpa [Prod.ext_iff] using heq
        simp
      · split at heq
        · obtain ⟨rfl, rfl⟩ : k = k' ∧ st = st2 := by simpa [Prod.ext_iff] using heq
          simp
        · rename_i hmatch stv hsv
          obtain ⟨ih1, ih2⟩ := ih (k + 1) _ k' st2 heq
          refine ⟨by omega, ?_⟩
          rw [ih2]
          dsimp only
          rw [List.append_assoc]
          congr 1
          have hk : k' - k = (k' - (k + 1)) + 1 := by omega
          have hpe : primedEntry (items.getD k defaultStored) (sl.getD k defaultSentence) =
              ⟨sl.getD k defaultSentence, some stv,
               some ((items.getD k defaultStored).end_ms.getD stv),
               (items.getD k defaultStored).audio_file⟩ := by
            unfold primedEntry
            rw [hsv]
          rw [hk, List.range'_succ, List.map_cons, hpe]
          rfl
    · obtain ⟨rfl, rfl⟩ : k = k' ∧ st = st2 := by simpa [Prod.ext_iff] using heq
      simp

/-- Part of the amended claim C1 for the weighted-approximation path: when the
computed weighted durations are all nonnegative and the previous committed end
does not exceed the base start, the appended entries keep the result list
non-strictly monotonic (adjacent approximated entries share boundaries). -/
lemma approx_monoChain (st : AlignerState) (sl : List Sentence) (cend : ℕ)
    (aname : Str) (fs fe : ℤ)
    (h1 : st.sent_idx < cend) (h2 : cend ≤ sl.length)
    (hmono : monoChain pairNonStrictOk st.results = true) :
    let last_end := last_end_ms_for_file st.results aname fs
    let base0 := max fs (last_end + 1)
    let base := if base0 > fe then fe else base0
    let remaining := max 0 (fe - base)
    let pending := (sl.drop st.sent_idx).take (cend - st.sent_idx)
    let weights := pending.map (fun s => max 1 ((pyStrip s.text).length : ℤ))
    let durs := weighted_durations remaining weights MIN_MATCH_MS
    (∀ d ∈ durs, 0 ≤ d) →
    (∀ r ∈ st.results.getLast?, ∀ e ∈ r.end_ms, e ≤ base) →
    monoChain pairNonStrictOk
      (approximate_missing_chunk st sl (some cend) aname fs fe).2.results = true := by
  intro last_end base0 base remaining pending weights durs hd hprev
  have hpl : pending.length = cend - st.sent_idx := by
    show ((sl.drop st.sent_idx).take (cend - st.sent_idx)).length = _
    rw [List.length_take, List.length_drop]
    omega
  have hpne : pending ≠ [] := by
    intro hc
    rw [hc] at hpl
    simp at hpl
    omega
  have hwne : weights ≠ [] := by
    intro hc
    exact hpne (List.map_eq_nil_iff.mp hc)
  have hdl : durs.length = pending.length := by
    show (weighted_durations remaining weights MIN_MATCH_MS).length = _
    rw [length_weighted_durations]
    exact List.length_map _ _
  have hzl : (pending.zip durs).length = pending.length := by
    rw [List.length_zip, hdl, min_self]
  have hzne : pending.zip durs ≠ [] := by
    intro hc
    rw [hc] at hzl
    exact hpne (List.eq_nil_of_length_eq_zero hzl.symm)
  have hbase_fe : base ≤ fe := by
    show (if base0 > fe then fe else base0) ≤ fe
    split <;> omega
  have hrem : remaining = fe - base := by
    show max 0 (fe - base) = fe - base
    exact max_eq_right (by omega)
  have hsum : durs.sum = remaining := by
    rcases lt_or_le 0 remaining with hrpos | hrnp
    · exact sum_weighted_durations remaining weights MIN_MATCH_MS hrpos hwne
    · have hr0 : remaining = 0 := le_antisymm hrnp (le_max_left 0 _)
      have hrepl : durs = List.replicate weights.length 0 := by
        show weighted_durations remaining weights MIN_MATCH_MS = _
        unfold weighted_durations
        dsimp only
        rw [if_neg (fun h => hwne (List.eq_nil_of_length_eq_zero h)), if_pos (by omega)]
      rw [hrepl, hr0]
      simp
  have hmapsnd : (pending.zip durs).map Prod.snd = durs :=
    List.map_snd_zip pending durs (le_of_eq hdl)
  have hd' : ∀ p ∈ pending.zip durs, 0 ≤ p.2 := by
    intro p hp
    exact hd p.2 (List.of_mem_zip hp).2
  have hspec : approximate_missing_chunk st sl (some cend) aname fs fe = (true,
      { st with
          results := st.results ++ setLastEnd (tileEntries base (pending.zip durs) aname) fe
          sent_idx := cend
          last_start_ms := lastStartOf
            (st.results ++ setLastEnd (tileEntries base (pending.zip durs) aname) fe)
            st.last_start_ms
          last_end_ms := lastEndOf
            (st.results ++ setLastEnd (tileEntries base (pending.zip durs) aname) fe)
            st.last_end_ms
          cursor := ptr_for_time st.words
            (lastEndOf (st.results ++ setLastEnd (tileEntries base (pending.zip durs) aname) fe)
              st.last_end_ms + 1) }) :=
    approximate_missing_chunk_spec st sl cend aname fs fe h1 h2
  rw [hspec]
  dsimp only
  apply monoChain_append _ _ _ hmono
  · -- the appended block is monotone
    apply monoChain_setLastEnd
    · exact monoChain_tile aname (pending.zip durs) base hd'
    · -- the last tiled entry starts no later than the file end
      intro r hr s hs
      have hzsplit : pending.zip durs =
          (pending.zip durs).dropLast ++ [(pending.zip durs).getLast hzne] :=
        (List.dropLast_append_getLast hzne).symm
      have hlast := tileEntries_getLast aname ((pending.zip durs).dropLast)
        ((pending.zip durs).getLast hzne) base
      rw [← hzsplit] at hlast
      rw [hlast] at hr
      have hre : r = ⟨((pending.zip durs).getLast hzne).1,
          some (tileCur base (pending.zip durs).dropLast),
          some (tileCur base (pending.zip durs).dropLast +
            ((pending.zip durs).getLast hzne).2), some aname⟩ := by
        simpa using hr.symm
      subst hre
      simp only [Option.mem_def, Option.some.injEq] at hs
      subst hs
      -- sum bookkeeping
      have hsplit_sum : ((pending.zip durs).map Prod.snd).sum =
          (((pending.zip durs).dropLast).map Prod.snd).sum +
            ((pending.zip durs).getLast hzne).2 := by
        conv_lhs => rw [hzsplit]
        rw [List.map_append, List.sum_append]
        simp
      have hlastmem : ((pending.zip durs).getLast hzne).2 ∈ durs := by
        have := List.getLast_mem hzne
        exact (List.of_mem_zip this).2
      have hlast_nonneg := hd _ hlastmem
      have ht1 := tileCur_eq ((pending.zip durs).dropLast) base
      rw [ht1]
      rw [hmapsnd] at hsplit_sum
      omega
    · exact tileEntries_end_ne_none aname (pending.zip durs) base
  · -- junction with the previous results
    intro x hx y hy
    cases hz : pending.zip durs with
    | nil => exact absurd hz hzne
    | cons z0 zrest =>
      rw [hz] at hy
      have hy' := hy
      rw [show tileEntries base (z0 :: zrest) aname =
          (⟨z0.1, some base, some (base + z0.2), some aname⟩ : Entry) ::
            tileEntries (base + z0.2) zrest aname from rfl] at hy'
      rw [setLastEnd_head] at hy'
      split at hy'
      · -- singleton block: the end is forced to the file end
        have hyv : y = ⟨z0.1, some base, some fe, some aname⟩ := by
          simpa using hy'.symm
        subst hyv
        exact pairNonStrictOk_of x _ base fe rfl rfl hbase_fe
          (fun ep hep => hprev x hx ep hep)
      · -- block of length ≥ 2: head keeps its tiled end
        have hyv : y = ⟨z0.1, some base, some (base + z0.2), some aname⟩ := by
          simpa using hy'.symm
        subst hyv
        have hz0 : 0 ≤ z0.2 := hd' z0 (by rw [hz]; exact List.mem_cons_self _ _)
        exact pairNonStrictOk_of x _ base (base + z0.2) rfl rfl (by omega)
          (fun ep hep => hprev x hx ep hep)

/-- Part of the amended claim C1 for the anchor-recovery path: when the
interpolated durations are nonnegative, the previous committed end does not
exceed the base start, and the anchor's end does not overrun the file end (so
the cap branch does not fire), the appended gap entries and the anchor keep
the result list non-strictly monotonic. -/
lemma anchor_monoChain (st : AlignerState) (sl : List Sentence) (cend : ℕ)
    (aname : Str) (fs fe : ℤ) (lookahead : ℕ)
    (aidx : ℕ) (stm enm : ℤ) (sw : Option Str) (ei : ℕ)
    (h1 : st.sent_idx < cend)
    (hA : findAnchor st sl (min cend (st.sent_idx + max 1 lookahead + 1))
        (min cend (st.sent_idx + max 1 lookahead + 1)) (st.sent_idx + 1) =
      some (aidx, (stm, enm, sw, ei)))
    (hmono : monoChain pairNonStrictOk st.results = true) :
    let last_end := last_end_ms_for_file st.results aname fs
    let base_start := max fs (last_end + 1)
    let anchor_start0 := max base_start stm
    let pending := (sl.drop st.sent_idx).take (aidx - st.sent_idx)
    let min_total := MIN_MATCH_MS * (pending.length : ℤ)
    let anchor_start := if anchor_start0 - base_start < min_total then
        min fe (base_start + min_total) else anchor_start0
    let gap_ms := max 0 (anchor_start - base_start)
    let weights := pending.map (fun s => max 1 ((pyStrip s.text).length : ℤ))
    let durs := weighted_durations gap_ms weights MIN_MATCH_MS
    let cur := if pending = [] then base_start else tileCur base_start (pending.zip durs)
    let stA0 := max (max anchor_start stm) cur
    let enA0 := max enm (stA0 + MIN_MATCH_MS)
    (∀ d ∈ durs, 0 ≤ d) →
    (∀ r ∈ st.results.getLast?, ∀ e ∈ r.end_ms, e ≤ base_start) →
    enA0 ≤ fe →
    monoChain pairNonStrictOk
      (recover_with_anchor st sl (some cend) aname fs fe lookahead).2.results = true := by
  intro last_end base_start anchor_start0 pending min_total anchor_start gap_ms weights durs
    cur stA0 enA0 hd hprev hcap
  by_cases hp : pending = []
  · -- no gap sentences: only the anchor entry is appended
    have has : anchor_start = anchor_start0 := by
      show (if anchor_start0 - base_start < min_total then
          min fe (base_start + min_total) else anchor_start0) = anchor_start0
      rw [if_neg]
      have h5 : base_start ≤ anchor_start0 := le_max_left _ _
      have hmt : min_total = 0 := by
        show MIN_MATCH_MS * ((pending.length : ℕ) : ℤ) = 0
        rw [hp]
        rfl
      omega
    have hcur : cur = base_start := by
      show (if pending = [] then base_start else tileCur base_start (pending.zip durs)) = _
      rw [if_pos hp]
    have hstA : stA0 = max (max anchor_start0 stm) base_start := by
      show max (max anchor_start stm) cur = _
      rw [has, hcur]
    have henA : enA0 = max enm (max (max anchor_start0 stm) base_start + MIN_MATCH_MS) := by
      show max enm (stA0 + MIN_MATCH_MS) = _
      rw [hstA]
    have hcap' : ¬ (max enm (max (max anchor_start0 stm) base_start + MIN_MATCH_MS) > fe) := by
      rw [← henA]
      omega
    have hrec : recover_with_anchor st sl (some cend) aname fs fe lookahead =
        (true,
         { st with
             results := st.results ++
               [⟨sl.getD aidx defaultSentence,
                 some (max (max anchor_start0 stm) base_start),
                 some (max enm (max (max anchor_start0 stm) base_start + MIN_MATCH_MS)),
                 some aname⟩]
             sent_idx := aidx + 1
             last_start_ms := max (max anchor_start0 stm) base_start
             last_end_ms := max enm (max (max anchor_start0 stm) base_start + MIN_MATCH_MS)
             cursor := min st.words.length (max st.cursor ei) }) := by
      unfold recover_with_anchor
      dsimp only
      rw [if_neg (by omega : ¬ cend ≤ st.sent_idx), hA]
      dsimp only
      rw [if_pos hp]
      dsimp only
      rw [if_neg hcap']
    rw [hrec]
    dsimp only
    refine monoChain_append _ _ _ hmono rfl ?_
    intro x hx y hy
    have hyv : y = ⟨sl.getD aidx defaultSentence,
        some (max (max anchor_start0 stm) base_start),
        some (max enm (max (max anchor_start0 stm) base_start + MIN_MATCH_MS)),
        some aname⟩ := by
      simpa using hy.symm
    subst hyv
    apply pairNonStrictOk_of x _ (max (max anchor_start0 stm) base_start)
      (max enm (max (max anchor_start0 stm) base_start + MIN_MATCH_MS)) rfl rfl
    · have hm : MIN_MATCH_MS = 200 := rfl
      omega
    · intro ep hep
      have h3 := hprev x hx ep hep
      have h4 : base_start ≤ max (max anchor_start0 stm) base_start := le_max_right _ _
      omega
  · -- gap sentences are interpolated before the anchor
    have hzl : (pending.zip durs).length = pending.length := by
      have hdl : durs.length = pending.length := by
        show (weighted_durations gap_ms weights MIN_MATCH_MS).length = _
        rw [length_weighted_durations]
        exact List.length_map _ _
      rw [List.length_zip, hdl, min_self]
    have hzne : pending.zip durs ≠ [] := by
      intro hc
      rw [hc] at hzl
      exact hp (List.eq_nil_of_length_eq_zero hzl.symm)
    have hd' : ∀ p ∈ pending.zip durs, 0 ≤ p.2 := by
      intro p hzp
      exact hd p.2 (List.of_mem_zip hzp).2
    have hcur : cur = tileCur base_start (pending.zip durs) := by
      show (if pending = [] then base_start else tileCur base_start (pending.zip durs)) = _
      rw [if_neg hp]
    have hstA : stA0 = max (max anchor_start stm) (tileCur base_start (pending.zip durs)) := by
      show max (max anchor_start stm) cur = _
      rw [hcur]
    have henA : enA0 = max enm (max (max anchor_start stm)
        (tileCur base_start (pending.zip durs)) + MIN_MATCH_MS) := by
      show max enm (stA0 + MIN_MATCH_MS) = _
      rw [hstA]
    have hcap' : ¬ (max enm (max (max anchor_start stm)
        (tileCur base_start (pending.zip durs)) + MIN_MATCH_MS) > fe) := by
      rw [← henA]
      omega
    have hrec : recover_with_anchor st sl (some cend) aname fs fe lookahead =
        (true,
         { st with
             results := (st.results ++ tileEntries base_start (pending.zip durs) aname) ++
               [⟨sl.getD aidx defaultSentence,
                 some (max (max anchor_start stm) (tileCur base_start (pending.zip durs))),
                 some (max enm (max (max anchor_start stm)
                   (tileCur base_start (pending.zip durs)) + MIN_MATCH_MS)),
                 some aname⟩]
             sent_idx := aidx + 1
             last_start_ms := max (max anchor_start stm) (tileCur base_start (pending.zip durs))
             last_end_ms := max enm (max (max anchor_start stm)
               (tileCur base_start (pending.zip durs)) + MIN_MATCH_MS)
             cursor := min st.words.length (max st.cursor ei) }) := by
      unfold recover_with_anchor
      dsimp only
      rw [if_neg (by omega : ¬ cend ≤ st.sent_idx), hA]
      dsimp only
      rw [if_neg hp]
      dsimp only
      rw [if_neg hcap']
    rw [hrec]
    dsimp only
    rw [List.append_assoc]
    apply monoChain_append _ _ _ hmono
    · -- gap tiling followed by the anchor entry
      apply monoChain_append
      · exact monoChain_tile aname (pending.zip durs) base_start hd'
      · rfl
      · intro x hx y hy
        have hyv : y = ⟨sl.getD aidx defaultSentence,
            some (max (max anchor_start stm) (tileCur base_start (pending.zip durs))),
            some (max enm (max (max anchor_start stm)
              (tileCur base_start (pending.zip durs)) + MIN_MATCH_MS)),
            some aname⟩ := by
          simpa using hy.symm
        subst hyv
        apply pairNonStrictOk_of x _ _ _ rfl rfl
        · have hm : MIN_MATCH_MS = 200 := rfl
          omega
        · intro ep hep
          -- the last gap entry ends exactly at `tileCur`, below the anchor start
          have hzsplit : pending.zip durs =
              (pending.zip durs).dropLast ++ [(pending.zip durs).getLast hzne] :=
            (List.dropLast_append_getLast hzne).symm
          have hlast := tileEntries_getLast aname ((pending.zip durs).dropLast)
            ((pending.zip durs).getLast hzne) base_start
          rw [← hzsplit] at hlast
          rw [hlast] at hx
          have hxv : x = ⟨((pending.zip durs).getLast hzne).1,
              some (tileCur base_start (pending.zip durs).dropLast),
              some (tileCur base_start (pending.zip durs).dropLast +
                ((pending.zip durs).getLast hzne).2), some aname⟩ := by
            simpa using hx.symm
          subst hxv
          simp only [Option.mem_def, Option.some.injEq] at hep
          subst hep
          -- ep = tileCur over dropLast + last duration = tileCur over the whole list
          have ht1 := tileCur_eq ((pending.zip durs).dropLast) base_start
          have ht2 := tileCur_eq (pending.zip durs) base_start
          have hsplit_sum : ((pending.zip durs).map Prod.snd).sum =
              (((pending.zip durs).dropLast).map Prod.snd).sum +
                ((pending.zip durs).getLast hzne).2 := by
            conv_lhs => rw [hzsplit]
            rw [List.map_append, List.sum_append]
            simp
          have h6 : tileCur base_start (pending.zip durs) ≤
              max (max anchor_start stm) (tileCur base_start (pending.zip durs)) :=
            le_max_right _ _
          omega
    · -- junction between the previous results and the first gap entry
      intro x hx y hy
      cases hz : pending.zip durs with
      | nil => exact absurd hz hzne
      | cons z0 zrest =>
        rw [hz] at hy
        rw [show tileEntries base_start (z0 :: zrest) aname =
            (⟨z0.1, some base_start, some (base_start + z0.2), some aname⟩ : Entry) ::
              tileEntries (base_start + z0.2) zrest aname from rfl] at hy
        have hyv : y = ⟨z0.1, some base_start, some (base_start + z0.2), some aname⟩ := by
          simpa using hy.symm
        subst hyv
        have hz0 : 0 ≤ z0.2 := hd' z0 (by rw [hz]; exact List.mem_cons_self _ _)
        exact pairNonStrictOk_of x _ base_start (base_start + z0.2) rfl rfl (by omega)
          (fun ep hep => hprev x hx ep hep)

/-- Part of the amended claim C1 for the fuzzy-match commit path: a successful
`try_match_sentence` keeps the result list non-strictly monotonic, and its
committed entry is strict over the tracked last end
(`start_ms ≥ last_end_ms + 1`, `end_ms ≥ start_ms`). -/
lemma fuzzy_commit_monotone (st : AlignerState) (s : Sentence) (aggressive : Bool)
    (st2 : AlignerState)
    (hmono : monoChain pairNonStrictOk st.results = true)
    (hprev : ∀ r ∈ st.results.getLast?, ∀ e ∈ r.end_ms, e ≤ st.last_end_ms)
    (h : try_match_sentence st s aggressive = (true, st2)) :
    monoChain pairNonStrictOk st2.results = true ∧
    st2.last_end_ms ≥ st2.last_start_ms ∧
    st2.last_start_ms ≥ st.last_end_ms + 1 := by
  unfold try_match_sentence at h
  split at h
  · simp at h
  · rename_i stm enm src_win end_idx heq
    have hst2 : st2 = _ := ((Prod.ext_iff.mp h).2).symm
    subst hst2
    obtain ⟨i', k', hck⟩ := core_hit_is_commitHit st s aggressive (stm, enm, src_win, end_idx) heq
    have hstm : stm = (commitHit st s i' k').1 := congrArg Prod.fst hck
    have henm : enm = (commitHit st s i' k').2.1 := congrArg (fun p => p.2.1) hck
    have hge1 : stm ≥ st.last_end_ms + 1 := by
      rw [hstm]; exact commitHit_start_ge st s i' k'
    have hge2 : enm ≥ stm := by
      rw [hstm, henm]; exact commitHit_end_ge_start st s i' k'
    refine ⟨?_, hge2, hge1⟩
    show monoChain pairNonStrictOk (st.results ++
      [⟨s, some stm, some enm,
        if optTruthy st.forced_src then st.forced_src else src_win⟩]) = true
    refine monoChain_append _ _ _ hmono rfl ?_
    intro x hx y hy
    have hyv : y = ⟨s, some stm, some enm,
        if optTruthy st.forced_src then st.forced_src else src_win⟩ := by
      simpa using hy.symm
    subst hyv
    exact pairNonStrictOk_of x _ stm enm rfl rfl (by omega)
      (fun ep hep => by have h9 := hprev x hx ep hep; omega)

/-- Part of the amended claim C1 for the resume-priming path: starting from an
empty result list, `prime_from_existing` copies the consumed stored items
verbatim into the results (so monotonicity holds only to the extent the stored
progress file was monotone, which the code does not enforce). -/
lemma prime_results_verbatim (items : List StoredItem) (sl : List Sentence)
    (st : AlignerState) (h0 : st.results = []) :
    (prime_from_existing items sl st).2.results =
      (List.range' 0 (prime_from_existing items sl st).1).map
        (fun j => primedEntry (items.getD j defaultStored) (sl.getD j defaultSentence)) := by
  obtain ⟨-, hres⟩ := primeLoop_spec items sl (min items.length sl.length)
    (min items.length sl.length + 1) 0 st
    (primeLoop items sl (min items.length sl.length) (min items.length sl.length + 1) 0 st).1
    (primeLoop items sl (min items.length sl.length) (min items.length sl.length + 1) 0 st).2
    rfl
  show (primeLoop items sl (min items.length sl.length)
      (min items.length sl.length + 1) 0 st).2.results = _
  rw [hres, h0]
  simp only [List.nil_append, Nat.sub_zero]
  rfl

/-- Concrete two-character sentences used in counterexamples and witnesses. -/
def sAB : Sentence := { text := pyS "ab", norm := pyS "ab", tokens := [pyS "ab"] }

/-- Second concrete sentence. -/
def sCD : Sentence := { text := pyS "cd", norm := pyS "cd", tokens := [pyS "cd"] }

/-- Claim C1: false as stated.  The weighted-approximation fallback commits
entries that share a boundary: with two pending sentences over file span
`[0, 1000]` it appends `(1, 500)` and `(500, 1000)`, so
`start_ms[1] = 500 < end_ms[0] + 1 = 501` — the strict `+1` monotonicity fails
(only the non-strict inequality holds). -/
theorem C1_counterexample :
    (approximate_missing_chunk { sentences := [sAB, sCD] } [sAB, sCD] (some 2)
        (pyS "a.wav") 0 1000).2.results =
      [⟨sAB, some 1, some 500, some (pyS "a.wav")⟩,
       ⟨sCD, some 500, some 1000, some (pyS "a.wav")⟩] ∧
    monoChain pairStrictOk
      (approximate_missing_chunk { sentences := [sAB, sCD] } [sAB, sCD] (some 2)
        (pyS "a.wav") 0 1000).2.results = false :=
  ⟨by decide, by decide⟩

/-- Claim C2: false as stated.  When the remaining file span is shorter than
`MIN_MATCH_MS` per pending sentence, the weighted-approximation fallback
commits non-placeholder sentences with spans below `MIN_MATCH_MS`: over file
span `[0, 300]` with two pending sentences the first entry is `(1, 150)`,
a 149 ms span. -/
theorem C2_counterexample :
    (approximate_missing_chunk { sentences := [sAB, sCD] } [sAB, sCD] (some 2)
        (pyS "a.wav") 0 300).2.results.getD 0 ⟨sAB, none, none, none⟩ =
      ⟨sAB, some 1, some 150, some (pyS "a.wav")⟩ ∧
    sAB.placeholder = false ∧
    ¬ (150 - 1 ≥ MIN_MATCH_MS) :=
  ⟨by decide, by decide, by decide⟩

/-- Claim C4: when the weighted-approximation fallback fires, the remaining
file span `[base_start, file_end_ms]` is distributed over all pending
sentences `[sent_idx, chunk_end)` of the chunk using character-length weights
(`_weighted_durations`), the entries tile the span consecutively, and the last
entry's `end_ms` is forced to exactly `file_end_ms` (no rounding drift). -/
theorem C4_weighted_approximation (st : AlignerState) (sl : List Sentence) (cend : ℕ)
    (aname : Str) (fs fe : ℤ)
    (h1 : st.sent_idx < cend) (h2 : cend ≤ sl.length) :
    let r := approximate_missing_chunk st sl (some cend) aname fs fe
    let last_end := last_end_ms_for_file st.results aname fs
    let base0 := max fs (last_end + 1)
    let base := if base0 > fe then fe else base0
    let remaining := max 0 (fe - base)
    let pending := (sl.drop st.sent_idx).take (cend - st.sent_idx)
    let weights := pending.map (fun s => max 1 ((pyStrip s.text).length : ℤ))
    let durs := weighted_durations remaining weights MIN_MATCH_MS
    r.1 = true ∧
    r.2.sent_idx = cend ∧
    r.2.results = st.results ++ setLastEnd (tileEntries base (pending.zip durs) aname) fe ∧
    (r.2.results.getLast?).map Entry.end_ms = some (some fe) ∧
    r.2.results.length = st.results.length + (cend - st.sent_idx) := by
  intro r last_end base0 base remaining pending weights durs
  have hpl : pending.length = cend - st.sent_idx := by
    show ((sl.drop st.sent_idx).take (cend - st.sent_idx)).length = _
    rw [List.length_take, List.length_drop]
    omega
  have hpne : pending ≠ [] := by
    intro hc
    rw [hc] at hpl
    simp at hpl
    omega
  have hdl : durs.length = pending.length := by
    show (weighted_durations remaining weights MIN_MATCH_MS).length = _
    rw [length_weighted_durations]
    exact List.length_map _ _
  have hzl : (pending.zip durs).length = pending.length := by
    rw [List.length_zip, hdl, min_self]
  have htl : (tileEntries base (pending.zip durs) aname) ≠ [] := by
    intro hc
    have := tileEntries_length base (pending.zip durs) aname
    rw [hc, hzl] at this
    exact hpne (List.eq_nil_of_length_eq_zero this.symm)
  have hr : r = (true,
      { st with
          results := st.results ++ setLastEnd (tileEntries base (pending.zip durs) aname) fe
          sent_idx := cend
          last_start_ms := lastStartOf
            (st.results ++ setLastEnd (tileEntries base (pending.zip durs) aname) fe)
            st.last_start_ms
          last_end_ms := lastEndOf
            (st.results ++ setLastEnd (tileEntries base (pending.zip durs) aname) fe)
            st.last_end_ms
          cursor := ptr_for_time st.words
            (lastEndOf (st.results ++ setLastEnd (tileEntries base (pending.zip durs) aname) fe)
              st.last_end_ms + 1) }) :=
    approximate_missing_chunk_spec st sl cend aname fs fe h1 h2
  refine ⟨by rw [hr], by rw [hr], by rw [hr], ?_, ?_⟩
  · rw [hr]
    obtain ⟨x, hx1, hx2⟩ := setLastEnd_getLast? (tileEntries base (pending.zip durs) aname) fe htl
    have hne2 : setLastEnd (tileEntries base (pending.zip durs) aname) fe ≠ [] := by
      intro hc
      rw [hc] at hx2
      simp at hx2
    show ((st.results ++
        setLastEnd (tileEntries base (pending.zip durs) aname) fe).getLast?).map Entry.end_ms = _
    rw [List.getLast?_append_of_ne_nil _ hne2, hx2]
    rfl
  · rw [hr]
    show (st.results ++ setLastEnd (tileEntries base (pending.zip durs) aname) fe).length = _
    rw [List.length_append, setLastEnd_length, tileEntries_length, hzl, hpl]

/-- Witness for `C4_weighted_approximation`: two pending two-character
sentences over file span `[0, 1000]`. -/
theorem C4_weighted_approximation_witness :
    let st : AlignerState := { sentences := [sAB, sCD] }
    let r := approximate_missing_chunk st [sAB, sCD] (some 2) (pyS "a.wav") 0 1000
    let last_end := last_end_ms_for_file st.results (pyS "a.wav") 0
    let base0 := max 0 (last_end + 1)
    let base := if base0 > 1000 then 1000 else base0
    let remaining := max 0 (1000 - base)
    let pending := (([sAB, sCD] : List Sentence).drop st.sent_idx).take (2 - st.sent_idx)
    let weights := pending.map (fun s => max 1 ((pyStrip s.text).length : ℤ))
    let durs := weighted_durations remaining weights MIN_MATCH_MS
    r.1 = true ∧
    r.2.sent_idx = 2 ∧
    r.2.results = st.results ++ setLastEnd (tileEntries base (pending.zip durs) (pyS "a.wav")) 1000 ∧
    (r.2.results.getLast?).map Entry.end_ms = some (some 1000) ∧
    r.2.results.length = st.results.length + (2 - st.sent_idx) :=
  C4_weighted_approximation { sentences := [sAB, sCD] } [sAB, sCD] 2 (pyS "a.wav") 0 1000
    (by decide) (by decide)

/-- Concrete aligner state for the anchor-recovery witness scenario: two
sentences, the second ("hello world") matching the word list exactly. -/
def stC1C : AlignerState :=
  { sentences := [sAB, sHW]
    word_texts := [pyS "hello", pyS "world"]
    words := [⟨pyS "hello", fz 0, ⟨5, 10⟩⟩, ⟨pyS "world", ⟨5, 10⟩, fz 1⟩]
    word_srcs := [some (pyS "a.wav"), some (pyS "a.wav")] }

/-- Claim C1 (amended): the strict `start ≥ previous end + 1` monotonicity
holds only on the fuzzy-match commit path; the other commit paths guarantee
at most non-strict monotonicity, and only conditionally.  Precisely:
(a) a successful fuzzy commit preserves the non-strict chain and is strict
over the tracked `last_end_ms` (`start_ms ≥ last_end_ms + 1`,
`end_ms ≥ start_ms`); (b) the weighted-approximation fallback preserves the
non-strict chain when the interpolated durations are nonnegative and the
previous committed end does not exceed the base start; (c) anchor recovery
preserves the non-strict chain under the same conditions when the anchor's
end does not overrun the file end; (d) resume priming copies the stored
items' times verbatim, enforcing no monotonicity of its own. -/
theorem C1_monotonicity_amended :
    (∀ (st : AlignerState) (s : Sentence) (aggressive : Bool) (st2 : AlignerState),
      monoChain pairNonStrictOk st.results = true →
      (∀ r ∈ st.results.getLast?, ∀ e ∈ r.end_ms, e ≤ st.last_end_ms) →
      try_match_sentence st s aggressive = (true, st2) →
      monoChain pairNonStrictOk st2.results = true ∧
      st2.last_end_ms ≥ st2.last_start_ms ∧
      st2.last_start_ms ≥ st.last_end_ms + 1) ∧
    (∀ (st : AlignerState) (sl : List Sentence) (cend : ℕ) (aname : Str) (fs fe : ℤ),
      st.sent_idx < cend → cend ≤ sl.length →
      monoChain pairNonStrictOk st.results = true →
      let last_end := last_end_ms_for_file st.results aname fs
      let base0 := max fs (last_end + 1)
      let base := if base0 > fe then fe else base0
      let remaining := max 0 (fe - base)
      let pending := (sl.drop st.sent_idx).take (cend - st.sent_idx)
      let weights := pending.map (fun s => max 1 ((pyStrip s.text).length : ℤ))
      let durs := weighted_durations remaining weights MIN_MATCH_MS
      (∀ d ∈ durs, 0 ≤ d) →
      (∀ r ∈ st.results.getLast?, ∀ e ∈ r.end_ms, e ≤ base) →
      monoChain pairNonStrictOk
        (approximate_missing_chunk st sl (some cend) aname fs fe).2.results = true) ∧
    (∀ (st : AlignerState) (sl : List Sentence) (cend : ℕ) (aname : Str) (fs fe : ℤ)
      (lookahead : ℕ) (aidx : ℕ) (stm enm : ℤ) (sw : Option Str) (ei : ℕ),
      st.sent_idx < cend →
      findAnchor st sl (min cend (st.sent_idx + max 1 lookahead + 1))
          (min cend (st.sent_idx + max 1 lookahead + 1)) (st.sent_idx + 1) =
        some (aidx, (stm, enm, sw, ei)) →
      monoChain pairNonStrictOk st.results = true →
      let last_end := last_end_ms_for_file st.results aname fs
      let base_start := max fs (last_end + 1)
      let anchor_start0 := max base_start stm
      let pending := (sl.drop st.sent_idx).take (aidx - st.sent_idx)
      let min_total := MIN_MATCH_MS * (pending.length : ℤ)
      let anchor_start := if anchor_start0 - base_start < min_total then
          min fe (base_start + min_total) else anchor_start0
      let gap_ms := max 0 (anchor_start - base_start)
      let weights := pending.map (fun s => max 1 ((pyStrip s.text).length : ℤ))
      let durs := weighted_durations gap_ms weights MIN_MATCH_MS
      let cur := if pending = [] then base_start else tileCur base_start (pending.zip durs)
      let stA0 := max (max anchor_start stm) cur
      let enA0 := max enm (stA0 + MIN_MATCH_MS)
      (∀ d ∈ durs, 0 ≤ d) →
      (∀ r ∈ st.results.getLast?, ∀ e ∈ r.end_ms, e ≤ base_start) →
      enA0 ≤ fe →
      monoChain pairNonStrictOk
        (recover_with_anchor st sl (some cend) aname fs fe lookahead).2.results = true) ∧
    (∀ (items : List StoredItem) (sl : List Sentence) (st : AlignerState),
      st.results = [] →
      (prime_from_existing items sl st).2.results =
        (List.range' 0 (prime_from_existing items sl st).1).map
          (fun j => primedEntry (items.getD j defaultStored) (sl.getD j defaultSentence))) :=
  ⟨fuzzy_commit_monotone, approx_monoChain, anchor_monoChain, prime_results_verbatim⟩

/-- Witness for `C1_monotonicity_amended`: all four commit paths exercised at
concrete inputs — the exact "hello world" fuzzy match, the two-sentence
approximation over `[0, 1000]`, the anchor recovery with one gap sentence
over `[0, 2000]`, and the replay of one stored item. -/
theorem C1_monotonicity_amended_witness :
    monoChain pairNonStrictOk (try_match_sentence stHW sHW false).2.results = true ∧
    monoChain pairNonStrictOk
      (approximate_missing_chunk { sentences := [sAB, sCD] } [sAB, sCD] (some 2)
        (pyS "a.wav") 0 1000).2.results = true ∧
    monoChain pairNonStrictOk
      (recover_with_anchor stC1C [sAB, sHW] (some 2) (pyS "a.wav") 0 2000 8).2.results = true ∧
    (prime_from_existing [⟨pyS "ab", some 0, some 5, some (pyS "a.wav")⟩] [sAB]
        { sentences := [sAB] }).2.results =
      (List.range' 0 (prime_from_existing [⟨pyS "ab", some 0, some 5, some (pyS "a.wav")⟩]
          [sAB] { sentences := [sAB] }).1).map
        (fun j => primedEntry
          (([⟨pyS "ab", some 0, some 5, some (pyS "a.wav")⟩] : List StoredItem).getD
            j defaultStored)
          (([sAB] : List Sentence).getD j defaultSentence)) :=
  ⟨(C1_monotonicity_amended.1 stHW sHW false (try_match_sentence stHW sHW false).2
      (by decide) (by simp [stHW]) rfl).1,
   C1_monotonicity_amended.2.1 { sentences := [sAB, sCD] } [sAB, sCD] 2 (pyS "a.wav") 0 1000
      (by decide) (by decide) (by decide) (by decide) (by simp),
   C1_monotonicity_amended.2.2.1 stC1C [sAB, sHW] 2 (pyS "a.wav") 0 2000 8 1 0 500 none 1
      (by decide) rfl (by decide) (by decide) (by simp [stC1C]) (by decide),
   C1_monotonicity_amended.2.2.2 [⟨pyS "ab", some 0, some 5, some (pyS "a.wav")⟩] [sAB]
      { sentences := [sAB] } rfl⟩

/-! ### The balanced chunker (`split_balanced`, `split_balanced_tts`)

Python resolves the helper names at call time, so both splitters use the
*second* definitions of `_find_break` (line 859) and
`_split_into_sentences_with_paras` (line 887), which shadow the earlier ones
at lines 363 and 389.  Whitespace classes (`\s`, `str.strip`) are modelled on
the ASCII whitespace set, matching `isPySpace`. -/

/-- Python slice `s[i:j]` for `0 ≤ i ≤ j`. -/
def slicePy (s : Str) (i j : ℕ) : Str := (s.drop i).take (j - i)

/-- `str.find(c, i)` for a single-character needle, as an optional index. -/
def strFind (s : Str) (c : Char) (i : ℕ) : Option ℕ :=
  match (s.drop i).findIdx? (fun d => d = c) with
  | none => none
  | some j => some (i + j)

/-- `str.rfind(c)` for a single-character needle (-1 when absent). -/
def strRfind (s : Str) (c : Char) : ℤ :=
  match s.reverse.findIdx? (fun d => d = c) with
  | none => -1
  | some j => (s.length : ℤ) - 1 - (j : ℤ)

/-- The scan loop of `_iter_tag_spans` (lines 325-336): find `[`, then the
closing `]`; an unclosed tag spans to the end of the string.  The scan
position strictly advances, so `length + 1` fuel suffices. -/
def tagSpansLoop (s : Str) : ℕ → ℕ → List (ℕ × ℕ)
  | 0, _ => []
  | fuel + 1, i =>
    if i < s.length then
      match strFind s '[' i with
      | none => []
      | some start =>
        match strFind s ']' (start + 1) with
        | none => [(start, s.length)]
        | some e => (start, e + 1) :: tagSpansLoop s fuel (e + 1)
    else []

/-- `_iter_tag_spans` (lines 318-337). -/
def iter_tag_spans (s : Str) : List (ℕ × ℕ) :=
  if s.contains '[' then tagSpansLoop s (s.length + 1) 0 else []

/-- `_mask_tags` (lines 339-352): every character inside a tag span becomes
`'a'` (writing `'a'` span by span equals the pointwise membership test). -/
def mask_tags (s : Str) : Str :=
  if s.contains '[' then
    let spans := iter_tag_spans s
    if spans = [] then s
    else s.mapIdx (fun j c =>
      if spans.any (fun sp => decide (sp.1 ≤ j) && decide (j < sp.2)) then 'a' else c)
  else s

/-- `_adjust_break_index` (lines 354-361): move a break index out of the
first tag span containing it strictly inside. -/
def adjust_break_index (idx : ℤ) (spans : List (ℕ × ℕ)) : ℤ :=
  match spans.find? (fun sp => decide ((sp.1 : ℤ) < idx) && decide (idx < (sp.2 : ℤ))) with
  | some sp => if (sp.1 : ℤ) > 0 then (sp.1 : ℤ) else (sp.2 : ℤ)
  | none => idx

/-- `_safe_break_index` (lines 849-856): avoid splitting a UTF-16 surrogate
pair (vacuous over Unicode scalar values, kept for fidelity), then clamp into
`[0, len]`. -/
def safe_break_index (s : Str) (idx : ℤ) : ℕ :=
  let idx := if 0 < idx ∧ idx < (s.length : ℤ) ∧
      0xD800 ≤ (s.getD (idx - 1).toNat ' ').toNat ∧
      (s.getD (idx - 1).toNat ' ').toNat ≤ 0xDBFF ∧
      0xDC00 ≤ (s.getD idx.toNat ' ').toNat ∧ (s.getD idx.toNat ' ').toNat ≤ 0xDFFF
    then idx - 1 else idx
  (max 0 (min (s.length : ℤ) idx)).toNat

/-- Length of the maximal prefix run satisfying `p`. -/
def runLength (p : Char → Bool) : Str → ℕ
  | [] => 0
  | c :: cs => if p c then runLength p cs + 1 else 0

/-- Sentence-ending punctuation, the class `[.!?…]`. -/
def isSentEnd (c : Char) : Bool := c = '.' || c = '!' || c = '?' || c = '…'

/-- The closing-character class `[)"»\x5d]` of the break regexes. -/
def isCloseQuote (c : Char) : Bool := c = ')' || c = '"' || c = '»' || c = ']'

/-- One attempt of the TTS break regex `([.!?…]+[)"»\x5d]?\s)` at position
`i` (lines 864-866).  The three classes are pairwise disjoint, so regex
backtracking matches exactly when the maximal punctuation run is followed by
an optional closing character and one whitespace; returns the match end.
(`'x'` is a sentinel outside every class, read only past the end.) -/
def matchBreakAt (s : Str) (i : ℕ) : Option ℕ :=
  let K := runLength isSentEnd (s.drop i)
  if K = 0 then none
  else if isCloseQuote (s.getD (i + K) 'x') && isPySpace (s.getD (i + K + 1) 'x') then
    some (i + K + 2)
  else if isPySpace (s.getD (i + K) 'x') then some (i + K + 1)
  else none

/-- `best` of `_find_break` (lines 863-866): the end of the last `finditer`
match, or -1; the scan resumes at each match end. -/
def lastBreakEnd (s : Str) : ℕ → ℕ → ℤ → ℤ
  | 0, _, best => best
  | fuel + 1, i, best =>
    if i < s.length then
      match matchBreakAt s i with
      | some e => lastBreakEnd s fuel e (e : ℤ)
      | none => lastBreakEnd s fuel (i + 1) best
    else best

/-- `int(limit * 0.6)` of line 867.  For every float-exact `limit` the double
product truncates to `⌊6·limit/10⌋` toward zero (the rounding error of the
double `0.6` stays far below the half-ulp of the product), so the threshold
is expressed exactly over ℤ. -/
def intLimit06 (limit : ℤ) : ℤ := Int.tdiv (limit * 6) 10

/-- `_find_break` (lines 859-884, the definition both splitters call at run
time): prefer the last sentence end when it reaches 60% of the window, else
the last whitespace, else the raw limit; each candidate is adjusted out of
tag spans and clamped. -/
def find_break (remaining : Str) (limit : ℤ) : ℕ :=
  let window := if 0 ≤ limit then remaining.take limit.toNat
    else remaining.take (max 0 ((remaining.length : ℤ) + limit)).toNat
  let masked := mask_tags window
  let spans := iter_tag_spans remaining
  let best := lastBreakEnd masked (masked.length + 1) 0 (-1)
  if best ≥ intLimit06 limit then
    let idx := adjust_break_index best spans
    let idx := if idx ≤ 0 then max 1 best else idx
    safe_break_index remaining idx
  else
    let last_space := max (strRfind masked ' ')
      (max (strRfind masked '\n') (strRfind masked '\t'))
    if last_space > 0 then
      let idx := adjust_break_index (last_space + 1) spans
      let idx := if idx ≤ 0 then max 1 (last_space + 1) else idx
      safe_break_index remaining idx
    else
      let idx := adjust_break_index limit spans
      let idx :=
        if idx ≤ 0 then
          let idx :=
            match spans with
            | (s0, e0) :: _ => if s0 = 0 then (e0 : ℤ) else idx
            | [] => idx
          if idx ≤ 0 then 1 else idx
        else idx
      safe_break_index remaining idx

/-- One attempt of the sentence regex `([.!?…]+[)"»\x5d]*)(\s+|$)` at
position `i` (line 895): maximal punctuation run, maximal closing run, then a
nonempty whitespace run or the end of the string (disjoint classes again make
backtracking trivial). -/
def matchSentAt (s : Str) (i : ℕ) : Option ℕ :=
  let K := runLength isSentEnd (s.drop i)
  if K = 0 then none
  else
    let L := runLength isCloseQuote (s.drop (i + K))
    let W := runLength isPySpace (s.drop (i + K + L))
    if W > 0 then some (i + K + L + W)
    else if i + K + L = s.length then some (i + K + L)
    else none

/-- Ends of all matches of the sentence regex in order (`finditer` of line
897). -/
def sentEnds (s : Str) : ℕ → ℕ → List ℕ
  | 0, _ => []
  | fuel + 1, i =>
    if i < s.length then
      match matchSentAt s i with
      | some e => e :: sentEnds s fuel e
      | none => sentEnds s fuel (i + 1)
    else []

/-- The per-paragraph sentence extraction of
`_split_into_sentences_with_paras` (lines 894-906): match ends come from the
masked text, slices from the original. -/
def splitParagraph (p : Str) : List Str :=
  let masked := mask_tags p
  let ends := sentEnds masked (masked.length + 1) 0
  let acc := ends.foldl (fun (acc : List Str × ℕ) e =>
      let sent := slicePy p acc.2 e
      (if pyStrip sent ≠ [] then acc.1 ++ [sent] else acc.1, e)) ([], 0)
  if acc.2 < p.length then
    let tail := p.drop acc.2
    if pyStrip tail ≠ [] then acc.1 ++ [tail] else acc.1
  else acc.1

/-- One attempt of the separator regex `\n\s*\n` at position `i` (the
`re.split` pattern of line 889): a newline, then the greedy whitespace run
backtracks to the last newline strictly inside it. -/
def matchParaSep (s : Str) (i : ℕ) : Option ℕ :=
  if s.getD i 'x' = '\n' then
    let R := runLength isPySpace (s.drop (i + 1))
    match ((List.range R).filter (fun t => s.getD (i + 1 + t) 'x' = '\n')).getLast? with
    | some t => some (i + 1 + t + 1)
    | none => none
  else none

/-- `re.split(r"\n\s*\n", source)` (line 889): cut a segment at each
separator match, scanning left to right; empty segments are kept. -/
def paraScan (s : Str) : ℕ → ℕ → ℕ → List Str
  | 0, segStart, _ => [s.drop segStart]
  | fuel + 1, segStart, i =>
    if i < s.length then
      match matchParaSep s i with
      | some e => slicePy s segStart i :: paraScan s fuel e e
      | none => paraScan s fuel segStart (i + 1)
    else [s.drop segStart]

/-- `_split_into_sentences_with_paras` (lines 887-915; extensionally equal to
the shadowed line-389 version, whose `m.end()` is `m.start() +
len(m.group(0))`): strip each paragraph, split the nonempty ones into
sentences, append a `"\n\n"` marker after every nonempty paragraph except the
last-indexed one, and collapse repeated markers. -/
def split_into_sentences_with_paras (source : Str) : List Str :=
  let paras := paraScan source (source.length + 1) 0 0
  let n := paras.length
  let result := (List.range n).flatMap (fun pi =>
      let p := pyStrip (paras.getD pi [])
      if p = [] then []
      else splitParagraph p ++ (if pi < n - 1 then [pyS "\n\n"] else []))
  result.foldl (fun compact cur =>
      if cur = pyS "\n\n" ∧ compact.getLast? = some (pyS "\n\n") then compact
      else compact ++ [cur]) []

/-- The overlong-sentence loop shared by the splitters (lines 934-939 and
430-435): break off stripped head chunks while the rest is longer than the
limit.  For `limit ≥ 0` every break index is at least 1, so `length + 1`
fuel suffices (for negative limits Python itself loops forever). -/
def normLoop (limit : ℤ) : ℕ → Str → List Str → List Str × Str
  | 0, rest, acc => (acc, rest)
  | fuel + 1, rest, acc =>
    if (rest.length : ℤ) > limit then
      let bp := find_break rest limit
      let chunk := pyStrip (rest.take bp)
      normLoop limit fuel (pyStrip (rest.drop bp))
        (if chunk ≠ [] then acc ++ [chunk] else acc)
    else (acc, rest)

/-- Normalization of one sentence in `split_balanced_tts` (lines 925-941). -/
def normalizeTTS (limit : ℤ) (s : Str) : List Str :=
  if s = pyS "\n\n" then [s]
  else if (s.length : ℤ) ≤ limit then [s]
  else
    let r := normLoop limit (s.length + 1) s []
    r.1 ++ (if pyStrip r.2 ≠ [] then [pyStrip r.2] else [])

/-- Normalization of one sentence in `split_balanced` (lines 424-437): the
rest is stripped before the loop and the final rest is appended if truthy. -/
def normalizeSB (limit : ℤ) (s : Str) : List Str :=
  if s = pyS "\n\n" ∨ (s.length : ℤ) ≤ limit then [s]
  else
    let r := normLoop limit ((pyStrip s).length + 1) (pyStrip s) []
    r.1 ++ (if r.2 ≠ [] then [r.2] else [])

/-- The prefix length sums `pref` (lines 945-947). -/
def prefSums (sents : List Str) : List ℤ :=
  (List.range (sents.length + 1)).map
    (fun i => ((((sents.take i).map List.length).sum : ℕ) : ℤ))

/-- `chunk_cost` (lines 949-954): infinite (`none`) over the limit, else the
squared slack (exact in a float for realistic limits). -/
def chunkCost (pref : List ℤ) (limit : ℤ) (i j : ℕ) : Option ℤ :=
  let len := pref.getD j 0 - pref.getD i 0
  if len > limit then none else some ((limit - len) * (limit - len))

/-- Float cost addition with `float('inf')` as `none`. -/
def addCost : Option ℤ → Option ℤ → Option ℤ
  | some a, some b => some (a + b)
  | _, _ => none

/-- `cost < best` over `float('inf')` as `none`. -/
def ltCost : Option ℤ → Option ℤ → Bool
  | none, _ => false
  | some _, none => true
  | some a, some b => decide (a < b)

/-- The inner `while j <= n and (pref[j] - pref[i]) <= limit` loop of lines
965-971, tracking the best cost and break index for row `i`. -/
def dpInner (pref : List ℤ) (best : List (Option ℤ)) (limit : ℤ) (n i : ℕ) :
    ℕ → ℕ → Option ℤ × ℤ → Option ℤ × ℤ
  | 0, _, acc => acc
  | fuel + 1, j, acc =>
    if j ≤ n ∧ pref.getD j 0 - pref.getD i 0 ≤ limit then
      let cost := addCost (chunkCost pref limit i j) (best.getD j none)
      dpInner pref best limit n i fuel (j + 1)
        (if ltCost cost acc.1 then (cost, (j : ℤ)) else acc)
    else acc

/-- The outer DP loop of lines 960-971, filling `best` and `next_break` for
`i = n-1` down to `0`; the recursion argument is `i + 1`. -/
def dpOuter (sents : List Str) (pref : List ℤ) (limit : ℤ) (n : ℕ) :
    ℕ → List (Option ℤ) → List ℤ → List (Option ℤ) × List ℤ
  | 0, best, nb => (best, nb)
  | i + 1, best, nb =>
    let r :=
      if sents.getD i [] = pyS "\n\n" then (best.getD (i + 1) none, (i : ℤ) + 1)
      else dpInner pref best limit n i (n + 2) (i + 1) (none, -1)
    dpOuter sents pref limit n i (best.set i r.1) (nb.set i r.2)

/-- The chunk reconstruction loop of lines 973-982. -/
def reconLoop (sents : List Str) (nb : List ℤ) (n : ℕ) : ℕ → ℕ → List Str → List Str
  | 0, _, acc => acc
  | fuel + 1, i, acc =>
    if i < n then
      let j0 := nb.getD i (-1)
      let j := if j0 = -1 ∨ j0 ≤ (i : ℤ) then min n (i + 1) else j0.toNat
      let text := pyStrip ((sents.drop i).take (j - i)).flatten
      reconLoop sents nb n fuel j (if text ≠ [] then acc ++ [text] else acc)
    else acc

/-- The DP core shared verbatim by `split_balanced` (lines 440-482) and
`split_balanced_tts` (lines 944-983); the `.trim()` branch of line 478 is
dead (`hasattr(str, "trim")` is false), leaving `.strip()` in both. -/
def balancedCore (sents : List Str) (limit : ℤ) : List Str :=
  let n := sents.length
  let pref := prefSums sents
  let r := dpOuter sents pref limit n n
    ((List.replicate (n + 1) (none : Option ℤ)).set n (some 0))
    (List.replicate (n + 1) (-1 : ℤ))
  reconLoop sents r.2 n (n + 1) 0 []

/-- The normalized sentence list of `split_balanced_tts` (lines 922-942). -/
def normalizedTTS (source : Str) (limit : ℤ) : List Str :=
  (split_into_sentences_with_paras source).flatMap (normalizeTTS limit)

/-- `split_balanced_tts` (lines 918-983); the `limit <= 0` guard returns the
whole source when its strip is truthy (the `limit is None` case is not
modelled). -/
def split_balanced_tts (source : Str) (limit : ℤ) : List Str :=
  if limit ≤ 0 then (if pyStrip source ≠ [] then [source] else [])
  else balancedCore (normalizedTTS source limit) limit

/-- `split_balanced` (lines 419-482): no limit guard and the slightly
different overlong-sentence normalization; at call time it uses the same
shadowing `_find_break` and `_split_into_sentences_with_paras` as the TTS
variant. -/
def split_balanced (source : Str) (limit : ℤ) : List Str :=
  balancedCore ((split_into_sentences_with_paras source).flatMap (normalizeSB limit)) limit

/-- Claim C6: false as stated.  An unbreakable `[ccccc]` tag longer than the
limit survives as an oversized chunk, and whitespace at piece boundaries is
stripped away, so neither the length bound nor the concatenation identity
holds: `split_balanced_tts "a.  b [ccccc]" 3 = ["a.", "b", "[ccccc]"]`. -/
theorem C6_counterexample :
    (pyS "[ccccc]") ∈ split_balanced_tts (pyS "a.  b [ccccc]") 3 ∧
    ¬ (((pyS "[ccccc]").length : ℤ) ≤ 3) ∧
    ((split_balanced_tts (pyS "a.  b [ccccc]") 3).filter
        (fun c => c ≠ pyS "\n\n")).flatten ≠ pyS "a.  b [ccccc]" ∧
    ((split_balanced_tts (pyS "a.  b [ccccc]") 3).filter
        (fun c => c ≠ pyS "\n\n")).flatten ≠ pyStrip (pyS "a.  b [ccccc]") :=
  ⟨by decide, by decide, by decide, by decide⟩

lemma flatMap_id_of (f : Str → List Str) :
    ∀ l : List Str, (∀ s ∈ l, f s = [s]) → l.flatMap f = l := by
  intro l
  induction l with
  | nil => intro _; rfl
  | cons a t ih =>
    intro h
    rw [List.flatMap_cons, h a (List.mem_cons_self a t),
      ih (fun s hs => h s (List.mem_cons_of_mem a hs))]
    rfl

lemma normalizeTTS_id (limit : ℤ) (s : Str)
    (h : s = pyS "\n\n" ∨ (s.length : ℤ) ≤ limit) : normalizeTTS limit s = [s] := by
  unfold normalizeTTS
  rcases h with h | h
  · rw [if_pos h]
  · by_cases h2 : s = pyS "\n\n"
    · rw [if_pos h2]
    · rw [if_neg h2, if_pos h]

lemma normalizeSB_id (limit : ℤ) (s : Str)
    (h : s = pyS "\n\n" ∨ (s.length : ℤ) ≤ limit) : normalizeSB limit s = [s] := by
  unfold normalizeSB
  rw [if_pos h]

lemma prefSums_getD (sents : List Str) (k : ℕ) (hk : k ≤ sents.length) :
    (prefSums sents).getD k 0 = ((((sents.take k).map List.length).sum : ℕ) : ℤ) := by
  unfold prefSums
  rw [List.getD_eq_getElem?_getD, List.getElem?_map, List.getElem?_range (by omega)]
  rfl

lemma prefSums_diff (sents : List Str) (i j : ℕ) (hij : i ≤ j) (hj : j ≤ sents.length) :
    (prefSums sents).getD j 0 - (prefSums sents).getD i 0 =
      (((((sents.drop i).take (j - i)).map List.length).sum : ℕ) : ℤ) := by
  rw [prefSums_getD sents j hj, prefSums_getD sents i (le_trans hij hj)]
  have h1 : sents.take j = sents.take i ++ (sents.drop i).take (j - i) := by
    rw [← List.take_add]
    congr 1
    omega
  rw [h1, List.map_append, List.sum_append]
  push_cast
  ring

lemma pyStrip_length_le (s : Str) : (pyStrip s).length ≤ s.length := by
  unfold pyStrip
  rw [List.length_reverse]
  calc ((s.dropWhile isPySpace).reverse.dropWhile isPySpace).length
      ≤ (s.dropWhile isPySpace).reverse.length := (List.dropWhile_suffix _).length_le
    _ = (s.dropWhile isPySpace).length := List.length_reverse _
    _ ≤ s.length := (List.dropWhile_suffix _).length_le

lemma chunk_length_le (sents : List Str) (i j : ℕ) (hij : i ≤ j) (hj : j ≤ sents.length) :
    ((pyStrip ((sents.drop i).take (j - i)).flatten).length : ℤ) ≤
      (prefSums sents).getD j 0 - (prefSums sents).getD i 0 := by
  rw [prefSums_diff sents i j hij hj]
  have h1 := pyStrip_length_le ((sents.drop i).take (j - i)).flatten
  have h2 : (((sents.drop i).take (j - i)).flatten).length =
      (((sents.drop i).take (j - i)).map List.length).sum := List.length_flatten _
  omega

lemma slice_singleton (sents : List Str) (i : ℕ) (hi : i < sents.length) :
    (sents.drop i).take 1 = [sents.getD i []] := by
  induction sents generalizing i with
  | nil => simp at hi
  | cons a t ih =>
    cases i with
    | zero => rfl
    | succ i => simpa using ih i (by simpa using hi)

lemma getD_set_self2 (l : List ℤ) (k : ℕ) (x d : ℤ) (hk : k < l.length) :
    (l.set k x).getD k d = x := by
  rw [List.getD_eq_getElem _ _ (by simpa using hk)]
  simp [List.getElem_set]

lemma getD_set_ne2 (l : List ℤ) (k i : ℕ) (x d : ℤ) (h : i ≠ k) :
    (l.set k x).getD i d = l.getD i d := by
  by_cases hi : i < l.length
  · rw [List.getD_eq_getElem _ _ (by simpa using hi), List.getD_eq_getElem _ _ hi]
    simp [List.getElem_set, h.symm]
  · rw [List.getD_eq_default, List.getD_eq_default] <;> simp at hi ⊢ <;> omega

lemma getD_replicate_neg_one (n k : ℕ) :
    (List.replicate n (-1 : ℤ)).getD k (-1) = -1 := by
  by_cases h : k < n
  · rw [List.getD_eq_getElem _ _ (by simpa using h)]
    simp
  · rw [List.getD_eq_default]
    simpa using h

/-- Shape invariant for `next_break` entries: unset, non-advancing, a window
whose raw length is within the limit, or the paragraph-marker fast path. -/
def nbOk (sents : List Str) (limit : ℤ) (k : ℕ) (v : ℤ) : Prop :=
  v = -1 ∨ v ≤ (k : ℤ) ∨
  (0 ≤ v ∧ v.toNat ≤ sents.length ∧
    (prefSums sents).getD v.toNat 0 - (prefSums sents).getD k 0 ≤ limit) ∨
  (sents.getD k [] = pyS "\n\n" ∧ v = (k : ℤ) + 1)

lemma dpInner_nbOk (sents : List Str) (best : List (Option ℤ)) (limit : ℤ) (i : ℕ) :
    ∀ (fuel j : ℕ) (acc : Option ℤ × ℤ),
      nbOk sents limit i acc.2 →
      nbOk sents limit i
        ((dpInner (prefSums sents) best limit sents.length i fuel j acc).2) := by
  intro fuel
  induction fuel with
  | zero => intro j acc h; exact h
  | succ fuel ih =>
    intro j acc h
    unfold dpInner
    split
    · rename_i hcond
      apply ih
      by_cases hlt : ltCost (addCost (chunkCost (prefSums sents) limit i j)
          (best.getD j none)) acc.1 = true
      · rw [if_pos hlt]
        right; right; left
        refine ⟨Int.natCast_nonneg j, ?_, ?_⟩
        · have ht : ((j : ℤ)).toNat = j := by omega
          rw [ht]
          exact hcond.1
        · have ht : ((j : ℤ)).toNat = j := by omega
          rw [ht]
          exact hcond.2
      · rw [if_neg hlt]
        exact h
    · exact h

lemma dpOuter_nbOk (sents : List Str) (limit : ℤ) :
    ∀ (m : ℕ) (best : List (Option ℤ)) (nb : List ℤ),
      sents.length ≤ nb.length →
      (∀ k, k < sents.length → m ≤ k → nbOk sents limit k (nb.getD k (-1))) →
      ∀ k, k < sents.length →
        nbOk sents limit k
          ((dpOuter sents (prefSums sents) limit sents.length m best nb).2.getD k (-1)) := by
  intro m
  induction m with
  | zero => intro best nb _ h k hk; exact h k hk (Nat.zero_le k)
  | succ m ih =>
    intro best nb hlen h k hk
    unfold dpOuter
    dsimp only
    refine ih _ _ (by rw [List.length_set]; exact hlen) ?_ k hk
    intro k' hk' hmk'
    by_cases hkm : k' = m
    · subst hkm
      rw [getD_set_self2 nb k' _ _ (lt_of_lt_of_le hk' hlen)]
      by_cases hmark : sents.getD k' [] = pyS "\n\n"
      · rw [if_pos hmark]
        right; right; right
        exact ⟨hmark, rfl⟩
      · rw [if_neg hmark]
        exact dpInner_nbOk sents best limit k' _ _ (none, -1) (Or.inl rfl)
    · rw [getD_set_ne2 nb m k' _ _ hkm]
      exact h k' hk' (by omega)

/-- One unfolding of `reconLoop` at an in-range index. -/
lemma reconLoop_succ (sents : List Str) (nb : List ℤ) (n fuel i : ℕ) (acc : List Str)
    (hin : i < n) :
    reconLoop sents nb n (fuel + 1) i acc =
      reconLoop sents nb n fuel
        (if nb.getD i (-1) = -1 ∨ nb.getD i (-1) ≤ (i : ℤ) then min n (i + 1)
          else (nb.getD i (-1)).toNat)
        (if pyStrip ((sents.drop i).take
            ((if nb.getD i (-1) = -1 ∨ nb.getD i (-1) ≤ (i : ℤ) then min n (i + 1)
              else (nb.getD i (-1)).toNat) - i)).flatten ≠ [] then
          acc ++ [pyStrip ((sents.drop i).take
            ((if nb.getD i (-1) = -1 ∨ nb.getD i (-1) ≤ (i : ℤ) then min n (i + 1)
              else (nb.getD i (-1)).toNat) - i)).flatten]
        else acc) := by
  rw [reconLoop, if_pos hin]

/-- Length bound for the chunk text emitted at one reconstruction step. -/
lemma recon_step_le (sents : List Str) (nb : List ℤ) (limit : ℤ) (hlim : 0 ≤ limit)
    (i : ℕ) (hin : i < sents.length)
    (hnb : nbOk sents limit i (nb.getD i (-1)))
    (hsents : ∀ s ∈ sents, s = pyS "\n\n" ∨ (s.length : ℤ) ≤ limit) :
    ((pyStrip ((sents.drop i).take
        ((if nb.getD i (-1) = -1 ∨ nb.getD i (-1) ≤ (i : ℤ) then min sents.length (i + 1)
          else (nb.getD i (-1)).toNat) - i)).flatten).length : ℤ) ≤ limit := by
  by_cases hfall : nb.getD i (-1) = -1 ∨ nb.getD i (-1) ≤ (i : ℤ)
  · rw [if_pos hfall]
    have hmin : min sents.length (i + 1) = i + 1 := by omega
    rw [hmin, (by omega : i + 1 - i = 1), slice_singleton sents i hin]
    rcases hsents (sents.getD i [])
        (by rw [List.getD_eq_getElem _ _ (by simpa using hin)]; exact List.getElem_mem _) with
      hm | hl
    · rw [hm, show ([pyS "\n\n"] : List Str).flatten = pyS "\n\n" by simp,
        show pyStrip (pyS "\n\n") = [] from by decide]
      simpa using hlim
    · rw [show ([sents.getD i []] : List Str).flatten = sents.getD i [] by simp]
      have h3 := pyStrip_length_le (sents.getD i [])
      omega
  · rw [if_neg hfall]
    push_neg at hfall
    obtain ⟨hne, hgt⟩ := hfall
    rcases hnb with h | h | h | h
    · exact absurd h hne
    · omega
    · obtain ⟨h0, hle, hwin⟩ := h
      calc ((pyStrip ((sents.drop i).take
            ((nb.getD i (-1)).toNat - i)).flatten).length : ℤ)
          ≤ (prefSums sents).getD (nb.getD i (-1)).toNat 0 - (prefSums sents).getD i 0 :=
            chunk_length_le sents i (nb.getD i (-1)).toNat (by omega) hle
        _ ≤ limit := hwin
    · obtain ⟨hmark, hv⟩ := h
      rw [hv, (by omega : ((i : ℤ) + 1).toNat = i + 1), (by omega : i + 1 - i = 1),
        slice_singleton sents i hin, hmark,
        show ([pyS "\n\n"] : List Str).flatten = pyS "\n\n" by simp,
        show pyStrip (pyS "\n\n") = [] from by decide]
      simpa using hlim

lemma reconLoop_le (sents : List Str) (nb : List ℤ) (limit : ℤ) (hlim : 0 ≤ limit)
    (hnb : ∀ k, k < sents.length → nbOk sents limit k (nb.getD k (-1)))
    (hsents : ∀ s ∈ sents, s = pyS "\n\n" ∨ (s.length : ℤ) ≤ limit) :
    ∀ (fuel i : ℕ) (acc : List Str),
      (∀ c ∈ acc, (c.length : ℤ) ≤ limit) →
      ∀ c ∈ reconLoop sents nb sents.length fuel i acc, (c.length : ℤ) ≤ limit := by
  intro fuel
  induction fuel with
  | zero => intro i acc hacc c hc; exact hacc c hc
  | succ fuel ih =>
    intro i acc hacc c hc
    by_cases hin : i < sents.length
    · rw [reconLoop_succ sents nb sents.length fuel i acc hin] at hc
      refine ih _ _ ?_ c hc
      intro c' hc'
      have hstep := recon_step_le sents nb limit hlim i hin (hnb i hin) hsents
      by_cases ht : pyStrip ((sents.drop i).take
          ((if nb.getD i (-1) = -1 ∨ nb.getD i (-1) ≤ (i : ℤ) then min sents.length (i + 1)
            else (nb.getD i (-1)).toNat) - i)).flatten ≠ []
      · rw [if_pos ht] at hc'
        rcases List.mem_append.mp hc' with hmem | hmem
        · exact hacc c' hmem
        · rw [List.mem_singleton] at hmem
          subst hmem
          exact hstep
      · rw [if_neg ht] at hc'
        exact hacc c' hc'
    · unfold reconLoop at hc
      rw [if_neg hin] at hc
      exact hacc c hc

lemma reconLoop_partition (sents : List Str) (nb : List ℤ) :
    ∀ (fuel i : ℕ) (acc : List Str), sents.length ≤ fuel + i →
      ∃ blocks : List (List Str),
        blocks.flatten = sents.drop i ∧
        reconLoop sents nb sents.length fuel i acc =
          acc ++ (blocks.map (fun b => pyStrip b.flatten)).filter (fun t => t ≠ []) := by
  intro fuel
  induction fuel with
  | zero =>
    intro i acc hfi
    refine ⟨[], ?_, by simp [reconLoop]⟩
    rw [List.drop_eq_nil_of_le (by omega)]
    rfl
  | succ fuel ih =>
    intro i acc hfi
    by_cases hin : i < sents.length
    · rw [reconLoop_succ sents nb sents.length fuel i acc hin]
      generalize hJ : (if nb.getD i (-1) = -1 ∨ nb.getD i (-1) ≤ (i : ℤ) then
          min sents.length (i + 1) else (nb.getD i (-1)).toNat) = J
      have hij : i < J := by
        rw [← hJ]
        split
        · omega
        · rename_i hc
          push_neg at hc
          omega
      obtain ⟨blocks, hflat, hrec2⟩ := ih J _ (by omega)
      refine ⟨((sents.drop i).take (J - i)) :: blocks, ?_, ?_⟩
      · rw [List.flatten_cons, hflat]
        have hd : (sents.drop i).drop (J - i) = sents.drop J := by
          rw [List.drop_drop]
          congr 1
          omega
        rw [← hd, List.take_append_drop]
      · rw [hrec2, List.map_cons, List.filter_cons]
        by_cases ht : pyStrip ((sents.drop i).take (J - i)).flatten ≠ []
        · rw [if_pos ht, if_pos (by simpa using ht)]
          simp
        · rw [if_neg ht, if_neg (by simpa using ht)]
    · refine ⟨[], ?_, ?_⟩
      · rw [List.drop_eq_nil_of_le (by omega)]
        rfl
      · unfold reconLoop
        rw [if_neg hin]
        simp

/-- Claim C6 (amended): (a) when every sentence piece fits the limit (or is
the paragraph marker) and the limit is positive, every chunk of
`split_balanced_tts` has length at most the limit; (b) for every positive
limit the returned chunks are exactly the stripped concatenations of
consecutive blocks partitioning the normalized sentence pieces (empty strips
dropped) — concatenating the chunks loses the whitespace stripped at block
boundaries, so the claimed concatenation identity holds only up to that
whitespace. -/
theorem C6_chunker_amended :
    (∀ (source : Str) (limit : ℤ), 1 ≤ limit →
      (∀ s ∈ split_into_sentences_with_paras source,
        s = pyS "\n\n" ∨ (s.length : ℤ) ≤ limit) →
      ∀ c ∈ split_balanced_tts source limit, (c.length : ℤ) ≤ limit) ∧
    (∀ (source : Str) (limit : ℤ), 1 ≤ limit →
      ∃ blocks : List (List Str),
        blocks.flatten = normalizedTTS source limit ∧
        split_balanced_tts source limit =
          (blocks.map (fun b => pyStrip b.flatten)).filter (fun t => t ≠ [])) := by
  constructor
  · intro source limit hlim hsmall c hc
    have hid : normalizedTTS source limit = split_into_sentences_with_paras source :=
      flatMap_id_of _ _ (fun s hs => normalizeTTS_id limit s (hsmall s hs))
    unfold split_balanced_tts at hc
    rw [if_neg (by omega : ¬ limit ≤ 0), hid] at hc
    unfold balancedCore at hc
    dsimp only at hc
    refine reconLoop_le _ _ limit (by omega) ?_ hsmall _ 0 [] (by simp) c hc
    intro k hk
    exact dpOuter_nbOk _ limit _ _ _ (by simp)
      (fun k' _ _ => Or.inl (getD_replicate_neg_one _ k')) k hk
  · intro source limit hlim
    unfold split_balanced_tts
    rw [if_neg (by omega : ¬ limit ≤ 0)]
    unfold balancedCore
    dsimp only
    obtain ⟨blocks, h1, h2⟩ :=
      reconLoop_partition (normalizedTTS source limit) _
        ((normalizedTTS source limit).length + 1) 0 [] (by omega)
    exact ⟨blocks, by simpa using h1, by simpa using h2⟩

/-- Witness for `C6_chunker_amended`: the two-piece source `"aaaa. bb"` at
limit 10, whose chunks are within the limit and partition the pieces. -/
theorem C6_chunker_amended_witness :
    (∀ c ∈ split_balanced_tts (pyS "aaaa. bb") 10, (c.length : ℤ) ≤ 10) ∧
    (∃ blocks : List (List Str),
      blocks.flatten = normalizedTTS (pyS "aaaa. bb") 10 ∧
      split_balanced_tts (pyS "aaaa. bb") 10 =
        (blocks.map (fun b => pyStrip b.flatten)).filter (fun t => t ≠ [])) :=
  ⟨C6_chunker_amended.1 (pyS "aaaa. bb") 10 (by decide) (by decide),
   C6_chunker_amended.2 (pyS "aaaa. bb") 10 (by decide)⟩

/-- Claim C10: false as stated.  At `limit = 0` the guard of
`split_balanced_tts` returns the whole source while `split_balanced` runs the
overlong-normalization loop and splits every sentence into single
characters. -/
theorem C10_counterexample :
    split_balanced (pyS "a b") 0 = [pyS "a", pyS "b"] ∧
    split_balanced_tts (pyS "a b") 0 = [pyS "a b"] ∧
    split_balanced (pyS "a b") 0 ≠ split_balanced_tts (pyS "a b") 0 :=
  ⟨by decide, by decide, by decide⟩

/-- Claim C10 (amended): for every positive limit on which no sentence piece
overflows (so the two slightly different overlong-normalization loops are
both the identity), the two splitters agree — their sentence splitting and DP
cores are the same code at run time. -/
theorem C10_split_equiv_amended (source : Str) (limit : ℤ) (hlim : 1 ≤ limit)
    (hsmall : ∀ s ∈ split_into_sentences_with_paras source,
      s = pyS "\n\n" ∨ (s.length : ℤ) ≤ limit) :
    split_balanced source limit = split_balanced_tts source limit := by
  have hidT : normalizedTTS source limit = split_into_sentences_with_paras source :=
    flatMap_id_of _ _ (fun s hs => normalizeTTS_id limit s (hsmall s hs))
  have hidS : (split_into_sentences_with_paras source).flatMap (normalizeSB limit) =
      split_into_sentences_with_paras source :=
    flatMap_id_of _ _ (fun s hs => normalizeSB_id limit s (hsmall s hs))
  unfold split_balanced split_balanced_tts
  rw [if_neg (by omega : ¬ limit ≤ 0), hidT, hidS]

/-- Witness for `C10_split_equiv_amended`: both splitters return the same
chunks for `"aaaa. bb"` at limit 10. -/
theorem C10_split_equiv_amended_witness :
    split_balanced (pyS "aaaa. bb") 10 = split_balanced_tts (pyS "aaaa. bb") 10 :=
  C10_split_equiv_amended (pyS "aaaa. bb") 10 (by decide) (by decide)

/-! ### The items loop of `save_progress_json` (lines 1720-1746) -/

/-- One written progress item, restricted to the fields the loop computes
(`_build_item`'s other fields are copied from the sentence/meta verbatim). -/
structure ProgressItem where
  sent : Sentence
  start_ms : Option ℤ
  end_ms : Option ℤ
  audio_file : Option Str
deriving Repr, DecidableEq

/-- Default progress item for out-of-range lookups. -/
def defaultItem : ProgressItem := ⟨defaultSentence, none, none, none⟩

/-- The existing-items merge of lines 1725-1734: when the sentence has no
committed start and the stored item at the same index has matching stripped
text and a non-null `start_ms`, take the stored triple verbatim. -/
def mergedTriple (times : List (Option ℤ × Option ℤ × Option Str))
    (existing : List StoredItem) (sent : Sentence) (i : ℕ) :
    Option ℤ × Option ℤ × Option Str :=
  let t := times.getD i (none, none, none)
  if t.1 = none ∧ existing ≠ [] ∧ i < existing.length then
    let prev := existing.getD i defaultStored
    let prev_text := pyStrip prev.text
    if prev_text ≠ [] ∧ prev_text = pyStrip sent.text then
      match prev.start_ms with
      | some pst => (some pst, prev.end_ms, prev.audio_file)
      | none => t
    else t
  else t

/-- One iteration of the items loop (lines 1724-1742): the existing-items
merge, then the placeholder patch `st = en = last_end_ms` with
`src = last_audio_file` when `src` is null. -/
def buildStep (times : List (Option ℤ × Option ℤ × Option Str))
    (existing : List StoredItem) (sent : Sentence) (i : ℕ)
    (last_end_ms : Option ℤ) (last_audio_file : Option Str) : ProgressItem :=
  let m := mergedTriple times existing sent i
  if m.1 = none ∧ sent.placeholder = true ∧ last_end_ms ≠ none then
    ⟨sent, last_end_ms, last_end_ms,
      if m.2.2 = none then last_audio_file else m.2.2⟩
  else ⟨sent, m.1, m.2.1, m.2.2⟩

/-- The items loop (lines 1720-1746): after each item, `last_end_ms`
updates when the item's end is non-null, and `last_audio_file` only when
additionally the item's `audio_file` is truthy (lines 1743-1746). -/
def buildLoop (times : List (Option ℤ × Option ℤ × Option Str))
    (existing : List StoredItem) :
    List Sentence → ℕ → Option ℤ → Option Str → List ProgressItem
  | [], _, _, _ => []
  | sent :: rest, i, last_end_ms, last_audio_file =>
    let item := buildStep times existing sent i last_end_ms last_audio_file
    item :: buildLoop times existing rest (i + 1)
      (if item.end_ms ≠ none then item.end_ms else last_end_ms)
      (if item.end_ms ≠ none ∧ optTruthy item.audio_file then item.audio_file
        else last_audio_file)

/-- The items list the loop emits, starting with both trackers null. -/
def buildItems (times : List (Option ℤ × Option ℤ × Option Str))
    (existing : List StoredItem) (sl : List Sentence) : List ProgressItem :=
  buildLoop times existing sl 0 none none

/-- The items of `save_progress_json` from the aligner results (the `times`
index map of lines 1715-1718 is the list of result triples by position). -/
def save_progress_items (results : List Entry) (existing : List StoredItem)
    (sl : List Sentence) : List ProgressItem :=
  buildItems (results.map (fun r => (r.start_ms, r.end_ms, r.src))) existing sl

/-- `last_end_ms` after folding the emitted items over a start value. -/
def lastEndFold (le : Option ℤ) (its : List ProgressItem) : Option ℤ :=
  its.foldl (fun acc it => if it.end_ms ≠ none then it.end_ms else acc) le

/-- `last_audio_file` after folding the emitted items over a start value. -/
def lastAudioFold (la : Option Str) (its : List ProgressItem) : Option Str :=
  its.foldl (fun acc it =>
    if it.end_ms ≠ none ∧ optTruthy it.audio_file then it.audio_file else acc) la

lemma buildLoop_getD (times : List (Option ℤ × Option ℤ × Option Str))
    (existing : List StoredItem) :
    ∀ (sl : List Sentence) (i0 : ℕ) (le : Option ℤ) (la : Option Str) (k : ℕ),
      k < sl.length →
      (buildLoop times existing sl i0 le la).getD k defaultItem =
        buildStep times existing (sl.getD k defaultSentence) (i0 + k)
          (lastEndFold le ((buildLoop times existing sl i0 le la).take k))
          (lastAudioFold la ((buildLoop times existing sl i0 le la).take k)) := by
  intro sl
  induction sl with
  | nil => intro i0 le la k hk; simp at hk
  | cons s rest ih =>
    intro i0 le la k hk
    cases k with
    | zero => rfl
    | succ k =>
      have hk' : k < rest.length := by simpa using hk
      have harith : i0 + (k + 1) = (i0 + 1) + k := by omega
      have h2 := ih (i0 + 1)
        (if (buildStep times existing s i0 le la).end_ms ≠ none then
          (buildStep times existing s i0 le la).end_ms else le)
        (if (buildStep times existing s i0 le la).end_ms ≠ none ∧
            optTruthy (buildStep times existing s i0 le la).audio_file then
          (buildStep times existing s i0 le la).audio_file else la)
        k hk'
      show (buildLoop times existing (s :: rest) i0 le la).getD (k + 1) defaultItem = _
      rw [harith]
      exact h2

/-- Claim C7 (amended): a placeholder sentence whose post-merge start is null
is emitted with `start_ms = end_ms = ` the last non-null `end_ms` among the
earlier emitted items, and — when its post-merge `audio_file` is null — with
the audio of the most recent earlier item that has BOTH a non-null end and a
truthy audio file (items with null audio are skipped by the inheritance, so
the audio need not come from the immediately preceding committed item).  If
no earlier item has a non-null end, the start stays null and the post-merge
end and audio are written unchanged. -/
theorem C7_placeholder_amended (times : List (Option ℤ × Option ℤ × Option Str))
    (existing : List StoredItem) (sl : List Sentence) (i : ℕ)
    (hi : i < sl.length)
    (hph : (sl.getD i defaultSentence).placeholder = true)
    (hst : (mergedTriple times existing (sl.getD i defaultSentence) i).1 = none) :
    (buildItems times existing sl).getD i defaultItem =
      (if lastEndFold none ((buildItems times existing sl).take i) ≠ none then
        (⟨sl.getD i defaultSentence,
          lastEndFold none ((buildItems times existing sl).take i),
          lastEndFold none ((buildItems times existing sl).take i),
          if (mergedTriple times existing (sl.getD i defaultSentence) i).2.2 = none then
            lastAudioFold none ((buildItems times existing sl).take i)
          else (mergedTriple times existing (sl.getD i defaultSentence) i).2.2⟩ : ProgressItem)
       else
        ⟨sl.getD i defaultSentence, none,
          (mergedTriple times existing (sl.getD i defaultSentence) i).2.1,
          (mergedTriple times existing (sl.getD i defaultSentence) i).2.2⟩) := by
  have h := buildLoop_getD times existing sl 0 none none i hi
  rw [Nat.zero_add] at h
  unfold buildItems
  rw [h]
  unfold buildStep
  dsimp only
  by_cases hle : lastEndFold none ((buildLoop times existing sl 0 none none).take i) ≠ none
  · rw [if_pos ⟨hst, hph, hle⟩, if_pos hle]
  · rw [if_neg (fun hc => hle hc.2.2), if_neg hle, hst]

/-- Concrete placeholder sentence. -/
def sPH : Sentence :=
  { text := pyS "ph", norm := pyS "ph", tokens := [pyS "ph"], placeholder := true }

/-- Claim C7: false as stated.  With results `(0, 5, "a.wav")` for the first
sentence and `(6, 10, None)` for the second, the trailing placeholder is
emitted with `start_ms = end_ms = 10` (the previous non-null end) but with
`audio_file = "a.wav"` inherited from the FIRST item — not from the previous
committed item, whose audio is null. -/
theorem C7_counterexample :
    (save_progress_items
        [⟨sAB, some 0, some 5, some (pyS "a.wav")⟩, ⟨sCD, some 6, some 10, none⟩]
        [] [sAB, sCD, sPH]).getD 2 defaultItem =
      ⟨sPH, some 10, some 10, some (pyS "a.wav")⟩ ∧
    ((save_progress_items
        [⟨sAB, some 0, some 5, some (pyS "a.wav")⟩, ⟨sCD, some 6, some 10, none⟩]
        [] [sAB, sCD, sPH]).getD 1 defaultItem).end_ms = some 10 ∧
    ((save_progress_items
        [⟨sAB, some 0, some 5, some (pyS "a.wav")⟩, ⟨sCD, some 6, some 10, none⟩]
        [] [sAB, sCD, sPH]).getD 1 defaultItem).audio_file = none :=
  ⟨by decide, by decide, by decide⟩

/-- Witness for `C7_placeholder_amended`: the three-sentence scenario with a
null-audio middle item; the theorem's if-expression evaluates to
`(10, 10, "a.wav")`. -/
theorem C7_placeholder_amended_witness :
    (buildItems [(some 0, some 5, some (pyS "a.wav")), (some 6, some 10, none)]
        [] [sAB, sCD, sPH]).getD 2 defaultItem =
      ⟨sPH, some 10, some 10, some (pyS "a.wav")⟩ := by
  have h := C7_placeholder_amended
    [(some 0, some 5, some (pyS "a.wav")), (some 6, some 10, none)]
    [] [sAB, sCD, sPH] 2 (by decide) (by decide) (by decide)
  rw [h]
  decide

/-! ### `_atomic_replace_with_retry` (lines 1673-1695) -/

/-- Outcome of one `os.replace` attempt: success, a `PermissionError`, or an
`OSError` carrying an optional `winerror`. -/
inductive ReplaceOutcome where
  | ok : ReplaceOutcome
  | permError : ReplaceOutcome
  | osError (winerror : Option ℤ) : ReplaceOutcome
deriving Repr, DecidableEq

/-- Whether the except clauses retry this outcome: every `PermissionError`,
and an `OSError` whose `winerror` is 5 or 32 (lines 1684-1691). -/
def retryable : ReplaceOutcome → Bool
  | .permError => true
  | .osError w => decide (w = some 5 ∨ w = some 32)
  | .ok => false

/-- Result of the whole call: the attempt index that succeeded, or the
exception raised. -/
inductive ReplaceResult where
  | success (attempt : ℕ) : ReplaceResult
  | raised (e : ReplaceOutcome) : ReplaceResult
deriving Repr, DecidableEq

/-- The retry loop (lines 1680-1695): run attempts while fuel remains,
remembering the last retryable error and re-raising a non-retryable `OSError`
at once; when the loop ends, raise the remembered error (the trailing
`os.replace` of line 1695 runs only if no attempt ever errored, which cannot
happen after a full loop — it is modelled as one more attempt). -/
def replaceLoop (outcome : ℕ → ReplaceOutcome) : ℕ → ℕ → Option ReplaceOutcome → ReplaceResult
  | 0, i, last =>
    match last with
    | some e => .raised e
    | none =>
      match outcome i with
      | .ok => .success i
      | e => .raised e
  | rem + 1, i, _last =>
    match outcome i with
    | .ok => .success i
    | .permError => replaceLoop outcome rem (i + 1) (some .permError)
    | .osError w =>
      if w = some 5 ∨ w = some 32 then
        replaceLoop outcome rem (i + 1) (some (.osError w))
      else .raised (.osError w)

/-- `_atomic_replace_with_retry` over an abstract attempt-outcome function:
`max(1, retries)` tries (line 1680). -/
def atomic_replace_with_retry (outcome : ℕ → ReplaceOutcome) (retries : ℕ := 40) :
    ReplaceResult :=
  replaceLoop outcome (max 1 retries) 0 none

/-- The sleep between attempts, `min(0.25, base_sleep * (1.0 + 0.15 * i))`
(line 1692) with `base_sleep = 0.05`, the float literals taken at their
rational values (the min never ties on `[0, 40)`, so the float rounding of
the products cannot change which branch is taken). -/
def retrySleep (i : ℕ) : Frac :=
  Frac.fmin ⟨1, 4⟩ (Frac.mk 1 20 * (fz 1 + Frac.mk 3 20 * fz (i : ℤ)))

lemma Frac.fmin_le_left (a b : Frac) : Frac.fmin a b ≤ a := by
  unfold Frac.fmin
  split
  · rename_i h
    exact Int.le_of_lt h
  · show a.num * a.den ≤ a.num * a.den
    exact Int.le_refl _

lemma replaceLoop_success (outcome : ℕ → ReplaceOutcome) :
    ∀ (rem i : ℕ) (last : Option ReplaceOutcome) (j : ℕ),
      i ≤ j → j < i + rem →
      (∀ k, i ≤ k → k < j → retryable (outcome k) = true ∧ outcome k ≠ .ok) →
      outcome j = .ok →
      replaceLoop outcome rem i last = .success j := by
  intro rem
  induction rem with
  | zero => intro i last j h1 h2 _ _; omega
  | succ rem ih =>
    intro i last j h1 h2 hk hj
    unfold replaceLoop
    by_cases hij : i = j
    · subst hij
      rw [hj]
    · have hlt : i < j := by omega
      obtain ⟨hr, hne⟩ := hk i (le_refl i) hlt
      cases ho : outcome i with
      | ok => exact absurd ho hne
      | permError =>
        exact ih (i + 1) (some .permError) j (by omega) (by omega)
          (fun k hk1 hk2 => hk k (by omega) hk2) hj
      | osError w =>
        dsimp only
        rw [if_pos (by rw [ho] at hr; simpa [retryable] using hr)]
        exact ih (i + 1) (some (.osError w)) j (by omega) (by omega)
          (fun k hk1 hk2 => hk k (by omega) hk2) hj

lemma replaceLoop_raise (outcome : ℕ → ReplaceOutcome) :
    ∀ (rem i : ℕ) (last : Option ReplaceOutcome) (j : ℕ) (w : Option ℤ),
      i ≤ j → j < i + rem →
      (∀ k, i ≤ k → k < j → retryable (outcome k) = true ∧ outcome k ≠ .ok) →
      outcome j = .osError w → ¬ (w = some 5 ∨ w = some 32) →
      replaceLoop outcome rem i last = .raised (.osError w) := by
  intro rem
  induction rem with
  | zero => intro i last j w h1 h2 _ _ _; omega
  | succ rem ih =>
    intro i last j w h1 h2 hk hj hw
    unfold replaceLoop
    by_cases hij : i = j
    · subst hij
      rw [hj]
      dsimp only
      rw [if_neg hw]
    · have hlt : i < j := by omega
      obtain ⟨hr, hne⟩ := hk i (le_refl i) hlt
      cases ho : outcome i with
      | ok => exact absurd ho hne
      | permError =>
        exact ih (i + 1) (some .permError) j w (by omega) (by omega)
          (fun k hk1 hk2 => hk k (by omega) hk2) hj hw
      | osError w' =>
        dsimp only
        rw [if_pos (by rw [ho] at hr; simpa [retryable] using hr)]
        exact ih (i + 1) (some (.osError w')) j w (by omega) (by omega)
          (fun k hk1 hk2 => hk k (by omega) hk2) hj hw

lemma replaceLoop_exhaust (outcome : ℕ → ReplaceOutcome) (bound : ℕ) :
    ∀ (rem i : ℕ) (last : Option ReplaceOutcome),
      i + rem = bound → 1 ≤ rem →
      (∀ k, k < bound → retryable (outcome k) = true ∧ outcome k ≠ .ok) →
      replaceLoop outcome rem i last = .raised (outcome (bound - 1)) := by
  intro rem
  induction rem with
  | zero => intro i _ h1 h2 _; omega
  | succ rem ih =>
    intro i last hsum _ hk
    unfold replaceLoop
    obtain ⟨hr, hne⟩ := hk i (by omega)
    cases ho : outcome i with
    | ok => exact absurd ho hne
    | permError =>
      cases rem with
      | zero =>
        have hi : i = bound - 1 := by omega
        subst hi
        unfold replaceLoop
        rw [← ho]
      | succ rem' =>
        exact ih (i + 1) (some .permError) (by omega) (by omega) hk
    | osError w =>
      dsimp only
      rw [if_pos (by rw [ho] at hr; simpa [retryable] using hr)]
      cases rem with
      | zero =>
        have hi : i = bound - 1 := by omega
        subst hi
        unfold replaceLoop
        rw [← ho]
      | succ rem' =>
        exact ih (i + 1) (some (.osError w)) (by omega) (by omega) hk

/-- Claim C8 (confirmed): over 40 attempts, a success returns at once after
any run of retryable failures; a non-retryable `OSError` (winerror not 5/32)
propagates immediately; forty retryable failures raise the last retried
error; and every inter-attempt sleep starts at 50 ms and never exceeds the
250 ms cap. -/
theorem C8_atomic_replace :
    (∀ (outcome : ℕ → ReplaceOutcome) (j : ℕ), j < 40 →
      (∀ k, k < j → retryable (outcome k) = true ∧ outcome k ≠ .ok) →
      outcome j = .ok →
      atomic_replace_with_retry outcome 40 = .success j) ∧
    (∀ (outcome : ℕ → ReplaceOutcome) (j : ℕ) (w : Option ℤ), j < 40 →
      (∀ k, k < j → retryable (outcome k) = true ∧ outcome k ≠ .ok) →
      outcome j = .osError w → ¬ (w = some 5 ∨ w = some 32) →
      atomic_replace_with_retry outcome 40 = .raised (.osError w)) ∧
    (∀ (outcome : ℕ → ReplaceOutcome),
      (∀ k, k < 40 → retryable (outcome k) = true ∧ outcome k ≠ .ok) →
      atomic_replace_with_retry outcome 40 = .raised (outcome 39)) ∧
    (retrySleep 0).num * 20 = (retrySleep 0).den ∧
    (retrySleep 39).num * 4 = (retrySleep 39).den ∧
    (∀ i : ℕ, retrySleep i ≤ (⟨1, 4⟩ : Frac)) := by
  refine ⟨?_, ?_, ?_, by decide, by decide, ?_⟩
  · intro outcome j hj hk hsucc
    exact replaceLoop_success outcome 40 0 none j (by omega) (by omega)
      (fun k _ hk2 => hk k hk2) hsucc
  · intro outcome j w hj hk hos hw
    exact replaceLoop_raise outcome 40 0 none j w (by omega) (by omega)
      (fun k _ hk2 => hk k hk2) hos hw
  · intro outcome hk
    exact replaceLoop_exhaust outcome 40 40 0 none (by omega) (by omega) hk
  · intro i
    exact Frac.fmin_le_left _ _

/-- Witness for `C8_atomic_replace`: a first-attempt success, an immediate
non-retryable raise after one retried `PermissionError`, and forty sharing
violations exhausting the retries. -/
theorem C8_atomic_replace_witness :
    atomic_replace_with_retry (fun _ => .ok) 40 = .success 0 ∧
    atomic_replace_with_retry
      (fun k => if k = 0 then .permError else .osError (some 7)) 40 =
      .raised (.osError (some 7)) ∧
    atomic_replace_with_retry (fun _ => .osError (some 32)) 40 =
      .raised (.osError (some 32)) ∧
    retrySleep 10 ≤ (⟨1, 4⟩ : Frac) :=
  ⟨C8_atomic_replace.1 (fun _ => .ok) 0 (by decide) (by intro k hk; omega) rfl,
   C8_atomic_replace.2.1 (fun k => if k = 0 then .permError else .osError (some 7))
     1 (some 7) (by decide)
     (fun k hk => by
       have hk0 : k = 0 := by omega
       subst hk0
       exact ⟨by decide, by decide⟩)
     (by decide) (by decide),
   C8_atomic_replace.2.2.1 (fun _ => .osError (some 32))
     (fun k _ =>
       ⟨show retryable (.osError (some 32)) = true from by decide,
        show (ReplaceOutcome.osError (some 32)) ≠ .ok from by decide⟩),
   C8_atomic_replace.2.2.2.2.2 10⟩

end Transcribe
